import Mathlib

/-!
Verification of the Smart Task Manager scheduling core
(`src/smart_task_manager.py`) against its natural-language specification.

Shallow embedding conventions:
* Python `datetime` values are modelled as `Int` timestamps in seconds;
  `timedelta.days` is floor division by 86400 (`Int.fdiv`), which matches
  Python's `timedelta` normalization for negative spans.
* `priority_score` is a Python float, but every value the score function
  produces is an integer, so it is modelled as `Int`.
* The task collection `self.tasks : Dict[int, Task]` is an insertion-ordered
  map; it is modelled as a `List Task` whose ids are unique (dict keys), with
  dict insertion (`d[k] = v`) replacing in place when the key exists.
* Python's `heapq` over tuples `(-priority_score, task_id, task)` pops the
  unique minimum of the lexicographic key `(-priority_score, task_id)`
  (ids in the heap are distinct, so the third component is never compared);
  it is modelled by selecting the key-minimal element of an available list.
* The unbounded `while available_tasks:` loop is modelled with fuel equal to
  the number of tasks; `topoLoop_fuel_enough` below proves that this fuel is
  never exhausted, so the model agrees with the unbounded loop.
-/

namespace STM

/-- Fields of `Task.__init__` (smart_task_manager.py lines 23-34). -/
structure Task where
  task_id : Nat
  title : String
  description : String
  deadline : Option Int
  urgency : Int
  dependencies : List Nat
  completed : Bool
  created_at : Int
  priority_score : Int
deriving DecidableEq, Repr

/-- Python `timedelta.days`: floor of the difference in days. -/
def daysBetween (later earlier : Int) : Int :=
  Int.fdiv (later - earlier) 86400

/-- The value computed by `Task.calculate_priority_score` (lines 36-60):
base urgency score, deadline component, age component. -/
def priority_score_value (now : Int) (t : Task) : Int :=
  let base_score := t.urgency * 10
  let deadline_score : Int :=
    match t.deadline with
    | none => 0
    | some dl =>
      let days_until_deadline := daysBetween dl now
      if days_until_deadline < 0 then 200
      else if days_until_deadline = 0 then 100
      else if days_until_deadline ≤ 3 then 80 - days_until_deadline * 20
      else if days_until_deadline ≤ 7 then 40 - days_until_deadline * 5
      else max 0 (20 - days_until_deadline)
  let age_days := daysBetween now t.created_at
  let age_score := min 20 (age_days * 2)
  base_score + deadline_score + age_score

/-- Model of `Task.calculate_priority_score`: it writes the computed value back into
`priority_score` (line 59) and returns it. -/
def calculate_priority_score (now : Int) (t : Task) : Task :=
  { t with priority_score := priority_score_value now t }

/-- Modelled from the spec: the §4.1 score formula exactly as the spec words
it (base, deadline term by the five `days` cases, age term), used as the
reference side of the refinement theorem for claim C5. -/
def spec_priority_score (now : Int) (t : Task) : Int :=
  let base := t.urgency * 10
  let deadline_term : Int :=
    match t.deadline with
    | none => 0
    | some dl =>
      let days := daysBetween dl now
      if days < 0 then 200
      else if days = 0 then 100
      else if 1 ≤ days ∧ days ≤ 3 then 80 - days * 20
      else if 4 ≤ days ∧ days ≤ 7 then 40 - days * 5
      else max 0 (20 - days)
  let age_days := daysBetween now t.created_at
  let age_term := min 20 (age_days * 2)
  base + deadline_term + age_term

/-- Model of `TaskManager.__init__` (lines 95-98); the unused `priority_queue`
field is omitted. -/
structure TaskManager where
  tasks : List Task
  next_id : Nat
deriving DecidableEq, Repr

/-- Ids of a task list (dict key view). -/
def IdsOf (l : List Task) : List Nat := l.map Task.task_id

/-- Python dict assignment `self.tasks[k] = v`: replaces in place when the
key exists, appends otherwise. -/
def dictInsert (tasks : List Task) (t : Task) : List Task :=
  if tasks.any (fun u => u.task_id == t.task_id) then
    tasks.map (fun u => if u.task_id == t.task_id then t else u)
  else
    tasks ++ [t]

/-- Model of `TaskManager._update_priorities` (lines 208-211). -/
def update_priorities (now : Int) (mgr : TaskManager) : TaskManager :=
  { mgr with tasks := mgr.tasks.map (calculate_priority_score now) }

/-- Model of `TaskManager.add_task` (lines 100-107): builds the Task with
`completed = False`, `created_at = now`, `priority_score = 0`, stores it
under `next_id`, increments `next_id`, recomputes all scores. -/
def add_task (mgr : TaskManager) (title description : String)
    (deadline : Option Int) (urgency : Int) (dependencies : List Nat)
    (now : Int) : TaskManager × Nat :=
  let t : Task :=
    { task_id := mgr.next_id, title := title, description := description,
      deadline := deadline, urgency := urgency,
      dependencies := dependencies, completed := false,
      created_at := now, priority_score := 0 }
  (update_priorities now
    { tasks := dictInsert mgr.tasks t, next_id := mgr.next_id + 1 },
   mgr.next_id)

/-- Model of `TaskManager.edit_task` (lines 109-129): `None` arguments mean "leave
the field unchanged"; recomputes all scores on success. -/
def edit_task (mgr : TaskManager) (tid : Nat)
    (title : Option String) (description : Option String)
    (deadline : Option Int) (urgency : Option Int)
    (dependencies : Option (List Nat)) (now : Int) : Bool × TaskManager :=
  if mgr.tasks.any (fun t => t.task_id == tid) then
    let tasks := mgr.tasks.map (fun t =>
      if t.task_id == tid then
        { t with
          title := match title with | some v => v | none => t.title,
          description :=
            match description with | some v => v | none => t.description,
          deadline := match deadline with | some v => some v | none => t.deadline,
          urgency := match urgency with | some v => v | none => t.urgency,
          dependencies :=
            match dependencies with | some v => v | none => t.dependencies }
      else t)
    (true, update_priorities now { mgr with tasks := tasks })
  else
    (false, mgr)

/-- Model of `TaskManager.delete_task` (lines 131-143): `list.remove` strips the
first occurrence of `tid` from each task's dependency list (modelled by
`List.erase`), then the task itself is deleted and scores recomputed. -/
def delete_task (mgr : TaskManager) (tid : Nat) (now : Int) :
    Bool × TaskManager :=
  if mgr.tasks.any (fun t => t.task_id == tid) then
    let stripped := mgr.tasks.map (fun t =>
      { t with dependencies := t.dependencies.erase tid })
    let tasks := stripped.filter (fun t => !(t.task_id == tid))
    (true, update_priorities now { mgr with tasks := tasks })
  else
    (false, mgr)

/-- Model of `TaskManager.complete_task` (lines 145-152). -/
def complete_task (mgr : TaskManager) (tid : Nat) (now : Int) :
    Bool × TaskManager :=
  if mgr.tasks.any (fun t => t.task_id == tid) then
    let tasks := mgr.tasks.map (fun t =>
      if t.task_id == tid then { t with completed := true } else t)
    (true, update_priorities now { mgr with tasks := tasks })
  else
    (false, mgr)

/-- Heap key comparison: Python pushes `(-priority_score, task_id, task)`
onto a min-heap, so `heapLt a b` holds when `a` pops strictly before `b`:
higher score first, lower id breaking score ties. -/
def heapLt (a b : Task) : Bool :=
  decide (b.priority_score < a.priority_score) ||
    (decide (a.priority_score = b.priority_score) &&
      decide (a.task_id < b.task_id))

/-- Select the heap-minimal element (first such on ties, which cannot occur
for distinct ids) and the rest of the list. -/
def selectMin : Task → List Task → Task × List Task
  | t, [] => (t, [])
  | t, u :: us =>
    if heapLt u t then
      let p := selectMin u us
      (p.1, t :: p.2)
    else
      let p := selectMin t us
      (p.1, u :: p.2)

/-- Model of `heapq.heappop` on the available set. -/
def popMin : List Task → Option (Task × List Task)
  | [] => none
  | t :: ts => some (selectMin t ts)

/-- Pointwise update of the in-degree map. -/
def bump (deg : Nat → Int) (i : Nat) (v : Int) : Nat → Int :=
  fun j => if j = i then v else deg j

/-- Model of the `task_dict[d]` lookup: dict comprehension keeps the last task with a
given id (ids are unique in reachable states, so this is the unique one). -/
def task_dict_find (tasks : List Task) (d : Nat) : Option Task :=
  tasks.foldl (fun acc u => if u.task_id == d then some u else acc) none

/-- The in-degree test of lines 177-178: `dep_id in in_degree` (the keys of
`in_degree` are exactly the working-set ids) and
`dep_id in task_dict and not task_dict[dep_id].completed`. -/
def dep_counts (tasks : List Task) (d : Nat) : Bool :=
  tasks.any (fun u => u.task_id == d) &&
    match task_dict_find tasks d with
    | some u => !u.completed
    | none => false

/-- The in-degree computation of lines 172-179: every dependency occurrence
satisfying `dep_counts` bumps the dependent task's count. -/
def initDeg (tasks : List Task) : Nat → Int :=
  tasks.foldl (fun deg t =>
    t.dependencies.foldl (fun deg d =>
      if dep_counts tasks d then bump deg t.task_id (deg t.task_id + 1)
      else deg) deg)
    (fun _ => 0)

/-- Initial ready set (lines 182-185): tasks with in-degree zero. -/
def initialReady (tasks : List Task) : List Task :=
  tasks.filter (fun t => initDeg tasks t.task_id == 0)

/-- One step of the decrement loop of lines 195-199 applied to `u`: if the
emitted id `tid` is in `u.dependencies` and `u` is not completed, decrement
`u`'s in-degree and push `u` when the count reaches zero. -/
def decStep (tid : Nat) (st : (Nat → Int) × List Task) (u : Task) :
    (Nat → Int) × List Task :=
  if u.dependencies.contains tid && !u.completed then
    let deg := bump st.1 u.task_id (st.1 u.task_id - 1)
    (deg, if deg u.task_id = 0 then st.2 ++ [u] else st.2)
  else st

/-- The `while available_tasks:` loop of lines 189-199, with fuel (proved
sufficient below): pop the heap-minimal task, emit it, run the decrement
loop over all tasks. -/
def topoLoop (tasks : List Task) : Nat → (Nat → Int) → List Task → List Task
  | 0, _, _ => []
  | fuel + 1, deg, avail =>
    match popMin avail with
    | none => []
    | some (t, rest) =>
      let st := tasks.foldl (decStep t.task_id) (deg, rest)
      t :: topoLoop tasks fuel st.1 st.2

/-- The tasks emitted by the main Kahn loop. -/
def mainPhase (tasks : List Task) : List Task :=
  topoLoop tasks tasks.length (initDeg tasks) (initialReady tasks)

/-- Line 202: `remaining_tasks = [t for t in tasks if t not in sorted_tasks]`.
Membership is by object identity; with unique ids it is id membership. -/
def remainingTasks (tasks : List Task) : List Task :=
  tasks.filter (fun t => !((mainPhase tasks).any (fun s => s.task_id == t.task_id)))

/-- Stable insertion step for descending sort by `priority_score`. -/
def insertDesc (t : Task) : List Task → List Task
  | [] => [t]
  | u :: us =>
    if u.priority_score ≤ t.priority_score then t :: u :: us
    else u :: insertDesc t us

/-- Line 203: `remaining_tasks.sort(key=lambda x: -x.priority_score)` —
Python's stable sort, descending by score, ties kept in list order. -/
def sortDesc (l : List Task) : List Task := l.foldr insertDesc []

/-- Model of `TaskManager._topological_sort_with_priority` (lines 168-206). -/
def topological_sort_with_priority (tasks : List Task) : List Task :=
  mainPhase tasks ++ sortDesc (remainingTasks tasks)

/-- The working set of `get_sorted_tasks` (lines 154-162): completion
filter, then per-task score recomputation at the current time. -/
def working_set (mgr : TaskManager) (include_completed : Bool) (now : Int) :
    List Task :=
  (if include_completed then mgr.tasks
   else mgr.tasks.filter (fun t => !t.completed)).map
    (calculate_priority_score now)

/-- Model of `TaskManager.get_sorted_tasks` (lines 154-166). -/
def get_sorted_tasks (mgr : TaskManager) (include_completed : Bool)
    (now : Int) : List Task :=
  topological_sort_with_priority (working_set mgr include_completed now)

/-- A persisted per-task record (`Task.to_dict` field set, lines 62-74).
`none` marks an absent key (for `deadline`, also a persisted `null`, which
`from_dict` treats identically). -/
structure TaskRecord where
  task_id : Option Nat
  title : Option String
  description : Option String
  deadline : Option Int
  urgency : Option Int
  dependencies : Option (List Nat)
  completed : Option Bool
  created_at : Option Int
  priority_score : Option Int
deriving DecidableEq, Repr

/-- Model of `Task.to_dict` (lines 62-74): every field is written. -/
def to_dict (t : Task) : TaskRecord :=
  { task_id := some t.task_id, title := some t.title,
    description := some t.description, deadline := t.deadline,
    urgency := some t.urgency, dependencies := some t.dependencies,
    completed := some t.completed, created_at := some t.created_at,
    priority_score := some t.priority_score }

/-- Model of `Task.from_dict` (lines 76-90): `task_id` and `title` are accessed with
`data[...]` and raise when missing (`none` result); the other fields fall
back to defaults, `created_at` defaulting to the current time. -/
def from_dict (now : Int) (r : TaskRecord) : Option Task :=
  match r.task_id, r.title with
  | some tid, some title =>
    some { task_id := tid, title := title,
           description := r.description.getD "",
           deadline := r.deadline,
           urgency := r.urgency.getD 5,
           dependencies := r.dependencies.getD [],
           completed := r.completed.getD false,
           created_at := r.created_at.getD now,
           priority_score := r.priority_score.getD 0 }
  | _, _ => none

/-- The persisted collection shape `{'tasks': [...], 'next_id': n}`;
both keys are read back with `.get` defaults. -/
structure SaveData where
  tasks : Option (List TaskRecord)
  next_id : Option Nat
deriving DecidableEq, Repr

/-- Model of `TaskManager.save_to_json` (lines 230-237), at the record level. -/
def save_to_json (mgr : TaskManager) : SaveData :=
  { tasks := some (mgr.tasks.map to_dict), next_id := some mgr.next_id }

/-- The record loop of lines 245-248, run after `self.tasks = {}`: builds
the new dict record by record; a record `from_dict` rejects aborts the loop
(first component `false`), leaving the partially built dict. -/
def loadLoop (now : Int) : List TaskRecord → List Task → Bool × List Task
  | [], acc => (true, acc)
  | r :: rs, acc =>
    match from_dict now r with
    | some t => loadLoop now rs (dictInsert acc t)
    | none => (false, acc)

/-- Model of `TaskManager.load_from_json` (lines 239-255). `input = none` models an
I/O or JSON-parse failure, raised before any mutation. Otherwise
`self.tasks` is replaced by `{}` first; a record failure is caught by the
`except` and reported as `false`, but `self.tasks` keeps the partial dict
and `next_id` keeps its prior value. On success `next_id` is taken verbatim
from the file (default 1) and all scores are recomputed. -/
def load_from_json (mgr : TaskManager) (input : Option SaveData) (now : Int) :
    Bool × TaskManager :=
  match input with
  | none => (false, mgr)
  | some data =>
    match loadLoop now (data.tasks.getD []) [] with
    | (true, ts) =>
      (true, update_priorities now
        { tasks := ts, next_id := data.next_id.getD 1 })
    | (false, ts) =>
      (false, { tasks := ts, next_id := mgr.next_id })

/-- The number of blocking in-edges a task receives from the in-degree
computation: its dependency occurrences satisfying `dep_counts`. -/
def blockCount (tasks : List Task) (t : Task) : Nat :=
  (t.dependencies.filter (fun d => dep_counts tasks d)).length

/-- Bounded reachability along dependency edges inside a working set:
`reachesWithin W n a b` holds when a chain of at most `n` dependency edges
(each step from a task in `W` to a dependency id present in `W`) leads from
id `a` to id `b`. Used to state the "no cycle back" side condition. -/
def reachesWithin (W : List Task) : Nat → Nat → Nat → Bool
  | 0, a, b => a == b
  | n + 1, a, b =>
    a == b ||
      W.any (fun t => t.task_id == a &&
        t.dependencies.any (fun c =>
          W.any (fun u => u.task_id == c) && reachesWithin W n c b))

/-! ### Shared concrete fixtures -/

/-- A base task: id 1, urgency 5, no deadline, created at time 0. -/
def baseTask : Task :=
  { task_id := 1, title := "A", description := "", deadline := none,
    urgency := 5, dependencies := [], completed := false, created_at := 0,
    priority_score := 0 }

/-! ### Claim C5: the score formula -/

/-- C5: for every task and every current time `now`,
`calculate_priority_score` writes `base + deadline_term + age_term` into
`priority_score`, with `base = urgency * 10`, the deadline term given by the
five `days = floor((deadline - now) in days)` cases of §4.1 (200 overdue,
100 due today, `80 - 20*days` for 1..3, `40 - 5*days` for 4..7,
`max 0 (20 - days)` beyond, 0 without deadline), and
`age_term = min 20 (2 * floor((now - created_at) in days))`. -/
theorem claim_C5_score_formula (now : Int) (t : Task) :
    (calculate_priority_score now t).priority_score = spec_priority_score now t := by
  show priority_score_value now t = spec_priority_score now t
  unfold priority_score_value spec_priority_score
  cases t.deadline with
  | none => rfl
  | some dl =>
    simp only []
    split_ifs <;> first | rfl | omega

/-! ### Claim C1: counterexample fixtures -/

/-- Task with id 3, urgency 9, depending on task 1. -/
def c1u : Task := { baseTask with task_id := 3, title := "U", urgency := 9, dependencies := [1] }

/-- Task with id 1, urgency 5, depending on task 2. -/
def c1v : Task := { baseTask with task_id := 1, title := "V", dependencies := [2] }

/-- Task with id 2, urgency 5, depending on task 1 (cycle with `c1v`). -/
def c1w : Task := { baseTask with task_id := 2, title := "W", dependencies := [1] }

/-- State holding `c1v`, `c1w`, `c1u`. -/
def c1mgr : TaskManager := { tasks := [c1v, c1w, c1u], next_id := 4 }

/-- Completed task with id 1, urgency 10. -/
def c1yA : Task := { baseTask with urgency := 10, completed := true }

/-- Task with id 2, urgency 5, depending on tasks 1 and 3. -/
def c1yt : Task := { baseTask with task_id := 2, dependencies := [1, 3] }

/-- Task with id 3, urgency 1. -/
def c1yB : Task := { baseTask with task_id := 3, urgency := 1 }

/-- State holding `c1yA` (completed), `c1yt`, `c1yB`. -/
def c1ymgr : TaskManager := { tasks := [c1yA, c1yt, c1yB], next_id := 4 }

/-- C1 counterexample: two concrete refutations of the claim as stated.
First (`include_completed = false`): in `c1mgr`, task `c1u` (id 3) depends
on `c1v` (id 1), which is in the working set, incomplete, and has no
dependency chain back to id 3 (its cycle is with id 2 only); yet the output
is `[u, v, w]`, placing `c1u` before `c1v` — all three tasks land in the
cycle fallback, which orders by priority alone. Second
(`include_completed = true`): in `c1ymgr`, task `c1yt` (id 2) depends on
the incomplete `c1yB` (id 3), which has no chain back to id 2; emitting the
completed task id 1 decrements `c1yt`'s counted in-degree even though the
completed dependency was never counted, so `c1yt` is emitted before
`c1yB`. -/
theorem claim_C1_counterexample :
    -- refutation with include_completed = false
    ((1 : Nat) ∈ c1u.dependencies ∧
      (calculate_priority_score 0 c1v) ∈ working_set c1mgr false 0 ∧
      c1v.completed = false ∧
      reachesWithin (working_set c1mgr false 0)
        (working_set c1mgr false 0).length 1 3 = false ∧
      get_sorted_tasks c1mgr false 0 =
        [calculate_priority_score 0 c1u, calculate_priority_score 0 c1v,
         calculate_priority_score 0 c1w]) ∧
    -- refutation with include_completed = true
    ((3 : Nat) ∈ c1yt.dependencies ∧
      (calculate_priority_score 0 c1yB) ∈ working_set c1ymgr true 0 ∧
      c1yB.completed = false ∧
      reachesWithin (working_set c1ymgr true 0)
        (working_set c1ymgr true 0).length 3 2 = false ∧
      get_sorted_tasks c1ymgr true 0 =
        [calculate_priority_score 0 c1yA, calculate_priority_score 0 c1yt,
         calculate_priority_score 0 c1yB]) := by
  decide

/-! ### Claim C4: counterexample fixtures -/

/-- The comparator the spec claims for the fallback batch:
`priority_score` descending, `id` ascending on ties. -/
def fallbackOrder (a b : Task) : Prop :=
  b.priority_score < a.priority_score ∨
    (b.priority_score = a.priority_score ∧ a.task_id < b.task_id)

instance (a b : Task) : Decidable (fallbackOrder a b) := by
  unfold fallbackOrder; infer_instance

/-- A persisted file that lists id 2 before id 1, the two tasks mutually
dependent with equal urgency. -/
def c4saved : SaveData :=
  { tasks := some
      [to_dict { baseTask with task_id := 2, title := "B", dependencies := [1] },
       to_dict { baseTask with task_id := 1, dependencies := [2] }],
    next_id := some 3 }

/-- The state obtained by loading `c4saved`. -/
def c4mgr : TaskManager :=
  (load_from_json { tasks := [], next_id := 1 } (some c4saved) 0).2

/-- Task id 2 of `c4mgr` with its recomputed score. -/
def c4B : Task :=
  { baseTask with task_id := 2, title := "B", dependencies := [1], priority_score := 50 }

/-- Task id 1 of `c4mgr` with its recomputed score. -/
def c4A : Task :=
  { baseTask with task_id := 1, dependencies := [2], priority_score := 50 }

/-- C4 counterexample: in the reachable state `c4mgr` (produced by
`load_from_json`, which inserts tasks in file order), the two mutually
dependent tasks both fall to the cycle fallback with equal scores, and the
fallback batch comes out as `[id 2, id 1]` — list order, not the
id-ascending tie-break the claim states. -/
theorem claim_C4_counterexample :
    get_sorted_tasks c4mgr false 0 = [c4B, c4A] ∧
    c4B ∈ sortDesc (remainingTasks (working_set c4mgr false 0)) ∧
    c4A ∈ sortDesc (remainingTasks (working_set c4mgr false 0)) ∧
    c4B.priority_score = c4A.priority_score ∧
    c4A.task_id < c4B.task_id ∧
    ¬ List.Pairwise fallbackOrder
        (sortDesc (remainingTasks (working_set c4mgr false 0))) := by
  decide

/-! ### Claim C7: counterexample fixtures -/

/-- Task id 2 listing id 1 twice in its dependencies. -/
def c7t2 : Task := { baseTask with task_id := 2, dependencies := [1, 1] }

/-- State with task 1 and task 2 (which depends on 1 twice). -/
def c7mgr : TaskManager := { tasks := [baseTask, c7t2], next_id := 3 }

/-- C7 counterexample: deleting task 1 from `c7mgr` returns true, but
`list.remove` strips only the first occurrence of 1 from task 2's
dependency list, so a task whose dependencies contain 1 remains —
contradicting "after the call no task's dependencies contain X". -/
theorem claim_C7_counterexample :
    (delete_task c7mgr 1 0).1 = true ∧
    ((delete_task c7mgr 1 0).2.tasks.map Task.dependencies) = [[1]] ∧
    (delete_task c7mgr 1 0).2.tasks.any
      (fun t => t.dependencies.contains 1) = true := by
  decide

/-! ### Claim C8: counterexample fixtures -/

/-- A state whose stored score (50) was computed at time 0. -/
def c8mgr : TaskManager :=
  { tasks := [{ baseTask with priority_score := 50 }], next_id := 2 }

/-- C8 counterexample: loading the serialization of `c8mgr` two days later
succeeds but does not reproduce the task set: `load_from_json` ends with
`_update_priorities`, which overwrites the persisted `priority_score` (50)
with a fresh computation (54, the age bonus having grown), so the claimed
verbatim reproduction of `priority_score` values fails. -/
theorem claim_C8_counterexample :
    (load_from_json { tasks := [], next_id := 1 }
      (some (save_to_json c8mgr)) 172800).1 = true ∧
    (load_from_json { tasks := [], next_id := 1 }
      (some (save_to_json c8mgr)) 172800).2 ≠ c8mgr ∧
    (load_from_json { tasks := [], next_id := 1 }
      (some (save_to_json c8mgr)) 172800).2.tasks.map Task.priority_score
      = [54] ∧
    c8mgr.tasks.map Task.priority_score = [50] := by
  decide

/-! ### Claim C9: failing-input evaluation -/

/-- A prior in-memory state with one task and `next_id = 5`. -/
def c9prior : TaskManager := { tasks := [baseTask], next_id := 5 }

/-- A persisted record missing the required `task_id` field. -/
def c9bad : TaskRecord :=
  { task_id := none, title := some "X", description := none,
    deadline := none, urgency := none, dependencies := none,
    completed := none, created_at := none, priority_score := none }

/-- C9: evaluating the code at the failing input. `load_from_json` assigns
`self.tasks = {}` before parsing records, so when `Task.from_dict` raises on
the malformed record the `except` branch reports failure (`false`) — but the
in-memory collection is left cleared, not as it was before the call: the
prior state had one task. -/
theorem claim_C9_load_not_atomic :
    (load_from_json c9prior
        (some { tasks := some [c9bad], next_id := some 9 }) 0) =
      (false, { tasks := [], next_id := 5 }) ∧
    c9prior.tasks ≠ [] := by
  decide

/-! ### Helper lemmas: heap selection -/

theorem heapLt_irrefl (a : Task) : heapLt a a = false := by
  simp [heapLt]

theorem heapLt_trans {a b c : Task} (h1 : heapLt a b = true)
    (h2 : heapLt b c = true) : heapLt a c = true := by
  simp only [heapLt, Bool.or_eq_true, Bool.and_eq_true, decide_eq_true_eq] at *
  omega

theorem heapLt_not_trans {a b c : Task} (h1 : heapLt a b = false)
    (h2 : heapLt b c = false) : heapLt a c = false := by
  simp only [heapLt, Bool.or_eq_false_iff, Bool.and_eq_false_iff,
    decide_eq_false_iff_not, decide_eq_true_eq] at *
  omega

theorem selectMin_perm (t : Task) (l : List Task) :
    List.Perm ((selectMin t l).1 :: (selectMin t l).2) (t :: l) := by
  induction l generalizing t with
  | nil => simp [selectMin]
  | cons u us ih =>
    by_cases hc : heapLt u t = true
    · simp only [selectMin, hc, if_true]
      exact (List.Perm.swap t _ _).trans ((ih u).cons t)
    · simp only [selectMin, hc, if_false]
      exact ((List.Perm.swap u _ _).trans ((ih t).cons u)).trans
        (List.Perm.swap t u us)

theorem selectMin_min (t : Task) (l : List Task) :
    ∀ u, (u = t ∨ u ∈ l) → heapLt u (selectMin t l).1 = false := by
  induction l generalizing t with
  | nil =>
    intro u hu
    rcases hu with rfl | h
    · simpa [selectMin] using heapLt_irrefl u
    · cases h
  | cons u0 us ih =>
    intro u hu
    by_cases hc : heapLt u0 t = true
    · simp only [selectMin, hc, if_true]
      have key : ∀ w, (w = u0 ∨ w ∈ us) → heapLt w (selectMin u0 us).1 = false :=
        ih u0
      rcases hu with rfl | h
      · by_contra hx
        have htm : heapLt u (selectMin u0 us).1 = true := by
          cases hy : heapLt u (selectMin u0 us).1
          · exact absurd hy hx
          · rfl
        have h1 := heapLt_trans hc htm
        have h2 := key u0 (Or.inl rfl)
        rw [h1] at h2
        cases h2
      · rcases List.mem_cons.mp h with rfl | h
        · exact key u (Or.inl rfl)
        · exact key u (Or.inr h)
    · simp only [selectMin, hc, if_false]
      have key : ∀ w, (w = t ∨ w ∈ us) → heapLt w (selectMin t us).1 = false :=
        ih t
      have hnlt : heapLt u0 t = false := by
        cases hy : heapLt u0 t
        · rfl
        · exact absurd hy hc
      rcases hu with rfl | h
      · exact key u (Or.inl rfl)
      · rcases List.mem_cons.mp h with rfl | h
        · exact heapLt_not_trans hnlt (key t (Or.inl rfl))
        · exact key u (Or.inr h)

theorem popMin_perm {l rest : List Task} {m : Task}
    (h : popMin l = some (m, rest)) : List.Perm (m :: rest) l := by
  cases l with
  | nil => cases h
  | cons t ts =>
    have h' : selectMin t ts = (m, rest) := by simpa [popMin] using h
    have hp := selectMin_perm t ts
    rw [h'] at hp
    exact hp

theorem popMin_min {l rest : List Task} {m : Task}
    (h : popMin l = some (m, rest)) : ∀ u ∈ l, heapLt u m = false := by
  cases l with
  | nil => cases h
  | cons t ts =>
    have h' : selectMin t ts = (m, rest) := by simpa [popMin] using h
    intro u hu
    have := selectMin_min t ts u
      (by rcases List.mem_cons.mp hu with rfl | h2
          · exact Or.inl rfl
          · exact Or.inr h2)
    rw [h'] at this
    exact this

theorem popMin_none {l : List Task} (h : popMin l = none) : l = [] := by
  cases l with
  | nil => rfl
  | cons t ts => cases h

theorem popMin_mem {l rest : List Task} {m : Task}
    (h : popMin l = some (m, rest)) : m ∈ l :=
  (popMin_perm h).subset (List.mem_cons_self m rest)

/-! ### Helper lemmas: the decrement fold -/

theorem decStep_fst (tid : Nat) (st : (Nat → Int) × List Task) (u : Task) :
    (decStep tid st u).1 =
      if u.dependencies.contains tid && !u.completed then
        bump st.1 u.task_id (st.1 u.task_id - 1)
      else st.1 := by
  unfold decStep
  by_cases h : (u.dependencies.contains tid && !u.completed) = true
  · rw [if_pos h, if_pos h]
  · rw [if_neg h, if_neg h]

theorem bump_self (deg : Nat → Int) (i : Nat) (v : Int) : bump deg i v i = v :=
  if_pos rfl

theorem bump_other (deg : Nat → Int) (i : Nat) (v : Int) {j : Nat}
    (h : j ≠ i) : bump deg i v j = deg j :=
  if_neg h

theorem decStep_snd (tid : Nat) (st : (Nat → Int) × List Task) (u : Task) :
    (decStep tid st u).2 =
      if u.dependencies.contains tid && !u.completed &&
          decide (st.1 u.task_id - 1 = 0) then
        st.2 ++ [u]
      else st.2 := by
  unfold decStep
  by_cases h : (u.dependencies.contains tid && !u.completed) = true
  · rw [if_pos h]
    show (if bump st.1 u.task_id (st.1 u.task_id - 1) u.task_id = 0
        then st.2 ++ [u] else st.2) = _
    rw [bump_self]
    by_cases h2 : st.1 u.task_id - 1 = 0
    · rw [if_pos h2, if_pos (by rw [h, decide_eq_true h2]; rfl)]
    · rw [if_neg h2, if_neg (by
        intro hx
        rw [h, Bool.true_and, decide_eq_true_eq] at hx
        exact h2 hx)]
  · rw [if_neg h]
    have hc : (u.dependencies.contains tid && !u.completed &&
        decide (st.1 u.task_id - 1 = 0)) = false := by
      cases hx : (u.dependencies.contains tid && !u.completed)
      · rw [Bool.false_and]
      · exact absurd hx h
    rw [hc, if_neg (by decide)]

theorem decStep_fst_pair (tid : Nat) (deg : Nat → Int) (avail : List Task)
    (u : Task) :
    (decStep tid (deg, avail) u).1 =
      if u.dependencies.contains tid && !u.completed then
        bump deg u.task_id (deg u.task_id - 1)
      else deg :=
  decStep_fst tid (deg, avail) u

theorem decStep_snd_pair (tid : Nat) (deg : Nat → Int) (avail : List Task)
    (u : Task) :
    (decStep tid (deg, avail) u).2 =
      if u.dependencies.contains tid && !u.completed &&
          decide (deg u.task_id - 1 = 0) then
        avail ++ [u]
      else avail :=
  decStep_snd tid (deg, avail) u

/-- The in-degree map after the decrement loop: position `j` has lost one
unit for each non-completed task with id `j` listing `tid` among its
dependencies. -/
theorem decFold_deg (tid : Nat) (l : List Task) :
    ∀ (st : (Nat → Int) × List Task) (j : Nat),
      (l.foldl (decStep tid) st).1 j =
        st.1 j - ((l.filter (fun u => u.task_id == j &&
            (u.dependencies.contains tid && !u.completed))).length : Int) := by
  induction l with
  | nil => intro st j; simp
  | cons u us ih =>
    intro st j
    rw [List.foldl_cons, ih (decStep tid st u) j, decStep_fst]
    by_cases hcond : (u.dependencies.contains tid && !u.completed) = true
    · rw [if_pos hcond]
      by_cases hj : j = u.task_id
      · subst hj
        rw [bump_self]
        simp only [List.filter_cons]
        split
        · rw [List.length_cons]; push_cast; ring
        · rename_i hx
          exfalso
          apply hx
          simp only [beq_self_eq_true, Bool.true_and]
          exact hcond
      · rw [bump_other _ _ _ hj]
        simp only [List.filter_cons]
        split
        · rename_i hx
          exfalso
          simp only [Bool.and_eq_true, beq_iff_eq] at hx
          exact hj hx.1.symm
        · rfl
    · rw [if_neg hcond]
      simp only [List.filter_cons]
      split
      · rename_i hx
        exfalso
        simp only [Bool.and_eq_true] at hx
        exact hcond (Bool.and_eq_true_iff.mpr ⟨hx.2.1, hx.2.2⟩)
      · rfl

/-- The available list after the decrement loop is the prior list plus a
suffix of freshly pushed tasks, all drawn from the iterated list. -/
theorem decFold_avail (tid : Nat) (l : List Task) :
    ∀ (st : (Nat → Int) × List Task),
      ∃ p, (l.foldl (decStep tid) st).2 = st.2 ++ p ∧ ∀ u ∈ p, u ∈ l := by
  induction l with
  | nil => intro st; exact ⟨[], by simp, by simp⟩
  | cons u us ih =>
    intro st
    rw [List.foldl_cons]
    obtain ⟨p, hp, hmem⟩ := ih (decStep tid st u)
    rw [decStep_snd] at hp
    by_cases hc : (u.dependencies.contains tid && !u.completed &&
        decide (st.1 u.task_id - 1 = 0)) = true
    · rw [if_pos hc] at hp
      refine ⟨u :: p, ?_, ?_⟩
      · simpa using hp
      · intro w hw
        rcases List.mem_cons.mp hw with rfl | hw
        · exact List.mem_cons_self w us
        · exact List.mem_cons_of_mem u (hmem w hw)
    · rw [if_neg hc] at hp
      refine ⟨p, hp, ?_⟩
      intro w hw
      exact List.mem_cons_of_mem u (hmem w hw)

/-! ### The loop invariant -/

/-- Invariant of the Kahn loop. `done` is the (ghost) list of ids already
emitted; `deg` and `avail` are the live in-degree map and available list.
Emitted and available ids are pairwise distinct working-set ids, and any
task that is already emitted or available has a non-positive count, so it
can never be pushed a second time (pushes happen only on a transition to
exactly zero). -/
structure LoopInv (tasks : List Task) (done : List Nat) (deg : Nat → Int)
    (avail : List Task) : Prop where
  nod : (done ++ IdsOf avail).Nodup
  availMem : ∀ u ∈ avail, u ∈ tasks
  doneMem : ∀ i ∈ done, i ∈ IdsOf tasks
  degLe : ∀ u ∈ tasks, (u.task_id ∈ done ∨ u.task_id ∈ IdsOf avail) →
    deg u.task_id ≤ 0

theorem loopInv_decStep {tasks : List Task} {done : List Nat}
    {deg : Nat → Int} {avail : List Task} (tid : Nat) {u : Task}
    (inv : LoopInv tasks done deg avail) (hu : u ∈ tasks) :
    LoopInv tasks done (decStep tid (deg, avail) u).1
      (decStep tid (deg, avail) u).2 := by
  rw [decStep_fst_pair, decStep_snd_pair]
  by_cases hcond : (u.dependencies.contains tid && !u.completed) = true
  · rw [if_pos hcond]
    by_cases h0 : deg u.task_id - 1 = 0
    · rw [if_pos (by rw [hcond, decide_eq_true h0]; rfl)]
      -- a push: `u` had count 1, so it was neither emitted nor available
      have hfresh : u.task_id ∉ done ∧ u.task_id ∉ IdsOf avail := by
        constructor
        · intro hmem
          have := inv.degLe u hu (Or.inl hmem)
          omega
        · intro hmem
          have := inv.degLe u hu (Or.inr hmem)
          omega
      refine ⟨?_, ?_, inv.doneMem, ?_⟩
      · have : IdsOf (avail ++ [u]) = IdsOf avail ++ [u.task_id] := by
          simp [IdsOf]
        rw [this, ← List.append_assoc]
        have hperm : List.Perm ((done ++ IdsOf avail) ++ [u.task_id])
            (u.task_id :: (done ++ IdsOf avail)) :=
          List.perm_append_singleton _ _
        refine hperm.nodup_iff.mpr ?_
        refine List.nodup_cons.mpr ⟨?_, inv.nod⟩
        intro hmem
        rcases List.mem_append.mp hmem with hmem | hmem
        · exact hfresh.1 hmem
        · exact hfresh.2 hmem
      · intro w hw
        rcases List.mem_append.mp hw with hw | hw
        · exact inv.availMem w hw
        · rcases List.mem_singleton.mp hw with rfl
          exact hu
      · intro w hw hmem
        by_cases hwj : w.task_id = u.task_id
        · rw [hwj, bump_self]
          omega
        · rw [bump_other _ _ _ hwj]
          apply inv.degLe w hw
          rcases hmem with hmem | hmem
          · exact Or.inl hmem
          · have : IdsOf (avail ++ [u]) = IdsOf avail ++ [u.task_id] := by
              simp [IdsOf]
            rw [this] at hmem
            rcases List.mem_append.mp hmem with hmem | hmem
            · exact Or.inr hmem
            · exact absurd (List.mem_singleton.mp hmem) hwj
    · rw [if_neg (by
        intro hx
        rw [hcond, Bool.true_and, decide_eq_true_eq] at hx
        exact h0 hx)]
      refine ⟨inv.nod, inv.availMem, inv.doneMem, ?_⟩
      intro w hw hmem
      by_cases hwj : w.task_id = u.task_id
      · rw [hwj, bump_self]
        have := inv.degLe w hw hmem
        rw [hwj] at this
        omega
      · rw [bump_other _ _ _ hwj]
        exact inv.degLe w hw hmem
  · rw [if_neg hcond, if_neg (by
      intro hx
      rw [Bool.and_eq_true] at hx
      exact hcond hx.1)]
    exact ⟨inv.nod, inv.availMem, inv.doneMem, inv.degLe⟩

theorem loopInv_fold {tasks : List Task} {done : List Nat} (tid : Nat) :
    ∀ (l : List Task) (deg : Nat → Int) (avail : List Task),
      (∀ u ∈ l, u ∈ tasks) → LoopInv tasks done deg avail →
      LoopInv tasks done (l.foldl (decStep tid) (deg, avail)).1
        (l.foldl (decStep tid) (deg, avail)).2 := by
  intro l
  induction l with
  | nil => intro deg avail _ inv; exact inv
  | cons u us ih =>
    intro deg avail hmem inv
    rw [List.foldl_cons]
    have step := loopInv_decStep tid inv (hmem u (List.mem_cons_self u us))
    have := ih (decStep tid (deg, avail) u).1 (decStep tid (deg, avail) u).2
      (fun w hw => hmem w (List.mem_cons_of_mem u hw)) step
    exact this

theorem loopInv_pop {tasks : List Task} {done : List Nat} {deg : Nat → Int}
    {avail rest : List Task} {t : Task}
    (inv : LoopInv tasks done deg avail)
    (hpop : popMin avail = some (t, rest)) :
    LoopInv tasks (done ++ [t.task_id]) deg rest := by
  have hperm := popMin_perm hpop
  have htmem : t ∈ avail := popMin_mem hpop
  have hidperm : List.Perm (t.task_id :: IdsOf rest) (IdsOf avail) :=
    hperm.map Task.task_id
  refine ⟨?_, ?_, ?_, ?_⟩
  · have h1 : List.Perm ((done ++ [t.task_id]) ++ IdsOf rest)
        (done ++ (t.task_id :: IdsOf rest)) := by
      rw [List.append_assoc]
      exact List.Perm.refl _
    have h2 : List.Perm (done ++ (t.task_id :: IdsOf rest))
        (done ++ IdsOf avail) := List.Perm.append_left done hidperm
    exact ((h1.trans h2).nodup_iff).mpr inv.nod
  · intro u hu
    exact inv.availMem u (hperm.subset (List.mem_cons_of_mem t hu))
  · intro i hi
    rcases List.mem_append.mp hi with hi | hi
    · exact inv.doneMem i hi
    · rcases List.mem_singleton.mp hi with rfl
      exact List.mem_map_of_mem Task.task_id (inv.availMem t htmem)
  · intro u hu hmem
    apply inv.degLe u hu
    rcases hmem with hmem | hmem
    · rcases List.mem_append.mp hmem with hmem | hmem
      · exact Or.inl hmem
      · have he := List.mem_singleton.mp hmem
        rw [he]
        exact Or.inr (List.mem_map_of_mem Task.task_id htmem)
    · exact Or.inr (hidperm.subset (List.mem_cons_of_mem _ hmem))

/-! ### Main properties of the Kahn loop -/

theorem avail_nil_of_done_full {tasks : List Task} {done : List Nat}
    {deg : Nat → Int} {avail : List Task}
    (inv : LoopInv tasks done deg avail)
    (hfull : tasks.length ≤ done.length) : avail = [] := by
  cases havail : avail with
  | nil => rfl
  | cons u us =>
    exfalso
    subst havail
    have hsub : (done ++ IdsOf (u :: us)) ⊆ IdsOf tasks := by
      intro i hi
      rcases List.mem_append.mp hi with hi | hi
      · exact inv.doneMem i hi
      · obtain ⟨w, hw, hwi⟩ := List.mem_map.mp hi
        rw [← hwi]
        exact List.mem_map_of_mem Task.task_id (inv.availMem w hw)
    have hlen := (inv.nod.subperm hsub).length_le
    rw [List.length_append] at hlen
    have h1 : (IdsOf (u :: us)).length = us.length + 1 := by
      simp [IdsOf]
    have h2 : (IdsOf tasks).length = tasks.length := List.length_map _ _
    omega

/-- Joint induction for the loop: every emitted task belongs to the working
set, emitted ids (together with the ghost `done`) stay pairwise distinct,
and — the fuel being at least the number of unemitted ids — every currently
available task is eventually emitted. -/
theorem topoLoop_props {tasks : List Task} :
    ∀ (fuel : Nat) (done : List Nat) (deg : Nat → Int) (avail : List Task),
      LoopInv tasks done deg avail →
      tasks.length - done.length ≤ fuel →
      (∀ u ∈ topoLoop tasks fuel deg avail, u ∈ tasks) ∧
      (done ++ IdsOf (topoLoop tasks fuel deg avail)).Nodup ∧
      (∀ u ∈ avail, u ∈ topoLoop tasks fuel deg avail) := by
  intro fuel
  induction fuel with
  | zero =>
    intro done deg avail inv hb
    have hnil : avail = [] := avail_nil_of_done_full inv (by omega)
    subst hnil
    refine ⟨?_, ?_, ?_⟩
    · intro u hu
      simp [topoLoop] at hu
    · simpa [topoLoop, IdsOf] using inv.nod
    · intro u hu
      cases hu
  | succ fuel ih =>
    intro done deg avail inv hb
    cases hpop : popMin avail with
    | none =>
      have hnil := popMin_none hpop
      subst hnil
      refine ⟨?_, ?_, ?_⟩
      · intro u hu
        simp [topoLoop, popMin] at hu
      · simpa [topoLoop, popMin, IdsOf] using inv.nod
      · intro u hu
        cases hu
    | some pr =>
      obtain ⟨t, rest⟩ := pr
      have hstep : topoLoop tasks (fuel + 1) deg avail
          = t :: topoLoop tasks fuel
              (tasks.foldl (decStep t.task_id) (deg, rest)).1
              (tasks.foldl (decStep t.task_id) (deg, rest)).2 := by
        simp [topoLoop, hpop]
      have inv1 := loopInv_pop inv hpop
      have inv2 := loopInv_fold t.task_id tasks deg rest (fun u hu => hu) inv1
      have hb2 : tasks.length - (done ++ [t.task_id]).length ≤ fuel := by
        rw [List.length_append]
        simp only [List.length_singleton]
        omega
      obtain ⟨m1, m2, m3⟩ := ih (done ++ [t.task_id]) _ _ inv2 hb2
      refine ⟨?_, ?_, ?_⟩
      · intro u hu
        rw [hstep] at hu
        rcases List.mem_cons.mp hu with rfl | hu
        · exact inv.availMem u (popMin_mem hpop)
        · exact m1 u hu
      · rw [hstep]
        have heq : done ++ IdsOf (t :: topoLoop tasks fuel
              (tasks.foldl (decStep t.task_id) (deg, rest)).1
              (tasks.foldl (decStep t.task_id) (deg, rest)).2)
            = (done ++ [t.task_id]) ++ IdsOf (topoLoop tasks fuel
              (tasks.foldl (decStep t.task_id) (deg, rest)).1
              (tasks.foldl (decStep t.task_id) (deg, rest)).2) := by
          simp [IdsOf]
        rw [heq]
        exact m2
      · intro u hu
        rw [hstep]
        rcases List.mem_cons.mp ((popMin_perm hpop).symm.subset hu) with rfl | hu2
        · exact List.mem_cons_self _ _
        · obtain ⟨p, hp, _⟩ := decFold_avail t.task_id tasks (deg, rest)
          have hmem2 : u ∈ (tasks.foldl (decStep t.task_id) (deg, rest)).2 := by
            rw [hp]
            exact List.mem_append_left p hu2
          exact List.mem_cons_of_mem t (m3 u hmem2)

/-- With fuel at least the number of unemitted ids, adding more fuel does
not change the result: the model agrees with Python's unbounded loop. -/
theorem topoLoop_fuel_enough {tasks : List Task} :
    ∀ (fuel : Nat) (done : List Nat) (deg : Nat → Int) (avail : List Task),
      LoopInv tasks done deg avail →
      tasks.length - done.length ≤ fuel →
      topoLoop tasks (fuel + 1) deg avail = topoLoop tasks fuel deg avail := by
  intro fuel
  induction fuel with
  | zero =>
    intro done deg avail inv hb
    have hnil : avail = [] := avail_nil_of_done_full inv (by omega)
    subst hnil
    simp [topoLoop, popMin]
  | succ fuel ih =>
    intro done deg avail inv hb
    cases hpop : popMin avail with
    | none =>
      have hnil := popMin_none hpop
      subst hnil
      simp [topoLoop, popMin]
    | some pr =>
      obtain ⟨t, rest⟩ := pr
      have inv1 := loopInv_pop inv hpop
      have inv2 := loopInv_fold t.task_id tasks deg rest (fun u hu => hu) inv1
      have hb2 : tasks.length - (done ++ [t.task_id]).length ≤ fuel := by
        rw [List.length_append]
        simp only [List.length_singleton]
        omega
      have hrec := ih (done ++ [t.task_id]) _ _ inv2 hb2
      simp only [topoLoop, hpop]
      exact congrArg (t :: ·) hrec

/-- Whenever `x` and `y` are simultaneously available and `x` precedes `y`
in the heap order (higher score, or equal score and lower id), `x` is
emitted strictly before `y`. -/
theorem topoLoop_order {tasks : List Task} :
    ∀ (fuel : Nat) (done : List Nat) (deg : Nat → Int) (avail : List Task)
      (x y : Task),
      LoopInv tasks done deg avail →
      tasks.length - done.length ≤ fuel →
      x ∈ avail → y ∈ avail → heapLt x y = true →
      List.Sublist [x, y] (topoLoop tasks fuel deg avail) := by
  intro fuel
  induction fuel with
  | zero =>
    intro done deg avail x y inv hb hx hy hlt
    have hnil : avail = [] := avail_nil_of_done_full inv (by omega)
    subst hnil
    cases hx
  | succ fuel ih =>
    intro done deg avail x y inv hb hx hy hlt
    cases hpop : popMin avail with
    | none =>
      have hnil := popMin_none hpop
      subst hnil
      cases hx
    | some pr =>
      obtain ⟨t, rest⟩ := pr
      have hstep : topoLoop tasks (fuel + 1) deg avail
          = t :: topoLoop tasks fuel
              (tasks.foldl (decStep t.task_id) (deg, rest)).1
              (tasks.foldl (decStep t.task_id) (deg, rest)).2 := by
        simp [topoLoop, hpop]
      have inv1 := loopInv_pop inv hpop
      have inv2 := loopInv_fold t.task_id tasks deg rest (fun u hu => hu) inv1
      have hb2 : tasks.length - (done ++ [t.task_id]).length ≤ fuel := by
        rw [List.length_append]
        simp only [List.length_singleton]
        omega
      have hxy : x ≠ y := by
        intro he
        rw [he, heapLt_irrefl] at hlt
        cases hlt
      obtain ⟨p, hp, _⟩ := decFold_avail t.task_id tasks (deg, rest)
      by_cases hxt : x = t
      · subst hxt
        have hyR : y ∈ rest := by
          rcases List.mem_cons.mp ((popMin_perm hpop).symm.subset hy)
            with he | h
          · exact absurd he.symm hxy
          · exact h
        have hyA : y ∈ (tasks.foldl (decStep x.task_id) (deg, rest)).2 := by
          rw [hp]
          exact List.mem_append_left p hyR
        obtain ⟨_, _, m3⟩ := topoLoop_props fuel (done ++ [x.task_id]) _ _
          inv2 hb2
        rw [hstep]
        exact List.Sublist.cons₂ x (List.singleton_sublist.mpr (m3 y hyA))
      · have hxm : heapLt x t = false := popMin_min hpop x hx
        have hyt : y ≠ t := by
          intro he
          rw [he] at hlt
          rw [hlt] at hxm
          cases hxm
        have hxR : x ∈ rest := by
          rcases List.mem_cons.mp ((popMin_perm hpop).symm.subset hx)
            with he | h
          · exact absurd he hxt
          · exact h
        have hyR : y ∈ rest := by
          rcases List.mem_cons.mp ((popMin_perm hpop).symm.subset hy)
            with he | h
          · exact absurd he hyt
          · exact h
        have hxA : x ∈ (tasks.foldl (decStep t.task_id) (deg, rest)).2 := by
          rw [hp]
          exact List.mem_append_left p hxR
        have hyA : y ∈ (tasks.foldl (decStep t.task_id) (deg, rest)).2 := by
          rw [hp]
          exact List.mem_append_left p hyR
        have hrec := ih (done ++ [t.task_id]) _ _ x y inv2 hb2 hxA hyA hlt
        rw [hstep]
        exact List.Sublist.cons t hrec

/-! ### Characterizing the initial in-degree computation -/

theorem nodup_ids_cons {h : Task} {hs : List Task}
    (hids : (IdsOf (h :: hs)).Nodup) :
    h.task_id ∉ IdsOf hs ∧ (IdsOf hs).Nodup := by
  rw [show IdsOf (h :: hs) = h.task_id :: IdsOf hs from rfl] at hids
  exact List.nodup_cons.mp hids

/-- With pairwise distinct ids, two members with the same id are equal. -/
theorem id_injective {tasks : List Task} (hids : (IdsOf tasks).Nodup)
    {a b : Task} (ha : a ∈ tasks) (hb : b ∈ tasks)
    (he : a.task_id = b.task_id) : a = b :=
  List.inj_on_of_nodup_map hids ha hb he

/-- With pairwise distinct ids, filtering on a member's id (conjoined with
any further test) keeps exactly that member, when it passes. -/
theorem filter_id_and {tasks : List Task} (hids : (IdsOf tasks).Nodup)
    {t : Task} (ht : t ∈ tasks) (P : Task → Bool) :
    tasks.filter (fun u => u.task_id == t.task_id && P u)
      = if P t then [t] else [] := by
  induction tasks with
  | nil => cases ht
  | cons h hs ih =>
    obtain ⟨hnotin, hnod⟩ := nodup_ids_cons hids
    rcases List.mem_cons.mp ht with rfl | htm
    · rw [List.filter_cons]
      have hall : hs.filter (fun u => u.task_id == t.task_id && P u) = [] := by
        apply List.filter_eq_nil_iff.mpr
        intro u hu
        have : u.task_id ≠ t.task_id := by
          intro he
          exact hnotin (he ▸ List.mem_map_of_mem Task.task_id hu)
        simp [this]
      rw [hall]
      by_cases hP : P t = true
      · rw [if_pos (by simp [hP]), if_pos hP]
      · have hP' : P t = false := by
          cases hx : P t
          · rfl
          · exact absurd hx hP
        rw [if_neg (by simp [hP']), if_neg (by simp [hP'])]
    · rw [List.filter_cons]
      have hne : h.task_id ≠ t.task_id := by
        intro he
        exact hnotin (he ▸ List.mem_map_of_mem Task.task_id htm)
      rw [if_neg (by simp [hne])]
      exact ih hnod htm

/-- The inner dependency fold of `initDeg` for one task `t`. -/
theorem initDeg_inner (tasks : List Task) (t : Task) :
    ∀ (deps : List Nat) (deg : Nat → Int) (j : Nat),
      (deps.foldl (fun deg d =>
          if dep_counts tasks d then bump deg t.task_id (deg t.task_id + 1)
          else deg) deg) j
        = deg j + (if j = t.task_id then
            ((deps.filter (fun d => dep_counts tasks d)).length : Int)
          else 0) := by
  intro deps
  induction deps with
  | nil => intro deg j; simp
  | cons d ds ih =>
    intro deg j
    rw [List.foldl_cons, List.filter_cons]
    by_cases hc : dep_counts tasks d = true
    · rw [if_pos hc, if_pos hc, ih, List.length_cons]
      by_cases hj : j = t.task_id
      · subst hj
        rw [bump_self, if_pos rfl, if_pos rfl]
        push_cast
        ring
      · rw [bump_other _ _ _ hj, if_neg hj, if_neg hj]
    · rw [if_neg hc, if_neg hc, ih]

/-- The outer fold of `initDeg`: position `j` accumulates the blocking
counts of every task whose id is `j`. -/
theorem initDeg_outer (tasks : List Task) :
    ∀ (l : List Task) (deg : Nat → Int) (j : Nat),
      (l.foldl (fun deg t =>
          t.dependencies.foldl (fun deg d =>
            if dep_counts tasks d then bump deg t.task_id (deg t.task_id + 1)
            else deg) deg) deg) j
        = deg j + ((l.filter (fun t => t.task_id == j)).map
            (fun t => ((t.dependencies.filter
              (fun d => dep_counts tasks d)).length : Int))).sum := by
  intro l
  induction l with
  | nil => intro deg j; simp
  | cons t ts ih =>
    intro deg j
    rw [List.foldl_cons, ih, initDeg_inner, List.filter_cons]
    by_cases hj : t.task_id = j
    · rw [if_pos (show (t.task_id == j) = true from beq_iff_eq.mpr hj),
        List.map_cons, List.sum_cons,
        if_pos (show j = t.task_id from hj.symm)]
      ring
    · rw [if_neg (show ¬((t.task_id == j) = true) from by simp [hj]),
        if_neg (show ¬(j = t.task_id) from fun h2 => hj h2.symm)]
      ring

/-- With pairwise distinct ids, `initDeg` at a member's id is exactly that
member's blocking in-edge count. -/
theorem initDeg_spec {tasks : List Task} (hids : (IdsOf tasks).Nodup)
    {t : Task} (ht : t ∈ tasks) :
    initDeg tasks t.task_id = (blockCount tasks t : Int) := by
  unfold initDeg blockCount
  rw [initDeg_outer]
  have hfil : tasks.filter (fun u => u.task_id == t.task_id) = [t] := by
    have := filter_id_and hids ht (fun _ => true)
    simpa using this
  rw [hfil]
  simp

/-! ### Dependency ordering within the loop -/

theorem contains_iff_mem {l : List Nat} {a : Nat} :
    l.contains a = true ↔ a ∈ l := by
  simp [List.contains]

theorem task_dict_find_result (d : Nat) :
    ∀ (l : List Task) (acc : Option Task),
      l.foldl (fun acc u => if u.task_id == d then some u else acc) acc = acc
      ∨ ∃ v ∈ l,
          l.foldl (fun acc u => if u.task_id == d then some u else acc) acc
            = some v ∧ v.task_id = d := by
  intro l
  induction l with
  | nil => intro acc; exact Or.inl rfl
  | cons u us ih =>
    intro acc
    rw [List.foldl_cons]
    by_cases hc : (u.task_id == d) = true
    · rcases ih (if u.task_id == d then some u else acc) with h | ⟨v, hv, hres, hvd⟩
      · refine Or.inr ⟨u, List.mem_cons_self u us, ?_, beq_iff_eq.mp hc⟩
        rw [h, if_pos hc]
      · exact Or.inr ⟨v, List.mem_cons_of_mem u hv, hres, hvd⟩
    · rcases ih (if u.task_id == d then some u else acc) with h | ⟨v, hv, hres, hvd⟩
      · rw [h, if_neg hc]
        exact Or.inl rfl
      · exact Or.inr ⟨v, List.mem_cons_of_mem u hv, hres, hvd⟩

theorem task_dict_find_isSome (d : Nat) :
    ∀ (l : List Task) (v : Task),
      ∃ w, l.foldl (fun acc u => if u.task_id == d then some u else acc)
        (some v) = some w := by
  intro l
  induction l with
  | nil => intro v; exact ⟨v, rfl⟩
  | cons u us ih =>
    intro v
    rw [List.foldl_cons]
    by_cases hc : (u.task_id == d) = true
    · rw [if_pos hc]; exact ih u
    · rw [if_neg hc]; exact ih v

theorem task_dict_find_some {tasks : List Task} {d : Nat}
    (h : ∃ u ∈ tasks, u.task_id = d) :
    ∃ v ∈ tasks, task_dict_find tasks d = some v ∧ v.task_id = d := by
  obtain ⟨u, hu, hud⟩ := h
  have hsome : ∃ w, task_dict_find tasks d = some w := by
    unfold task_dict_find
    obtain ⟨l1, l2, hsplit⟩ := List.append_of_mem hu
    subst hsplit
    rw [List.foldl_append, List.foldl_cons, if_pos (beq_iff_eq.mpr hud)]
    exact task_dict_find_isSome d l2 u
  rcases task_dict_find_result d tasks none with hres | hres
  · obtain ⟨w, hw⟩ := hsome
    unfold task_dict_find at hw
    rw [hres] at hw
    cases hw
  · exact hres

/-- In an all-incomplete collection, a dependency id that matches a stored
task satisfies the blocking test. -/
theorem dep_counts_true {tasks : List Task}
    (hincomp : ∀ u ∈ tasks, u.completed = false) {d : Nat}
    (h : ∃ u ∈ tasks, u.task_id = d) : dep_counts tasks d = true := by
  obtain ⟨v, hv, hfind, hvd⟩ := task_dict_find_some h
  obtain ⟨u, hu, hud⟩ := h
  unfold dep_counts
  rw [hfind]
  have hany : tasks.any (fun u => u.task_id == d) = true :=
    List.any_eq_true.mpr ⟨u, hu, beq_iff_eq.mpr hud⟩
  rw [hany]
  show (true && !v.completed) = true
  rw [hincomp v hv]
  rfl

/-- The counting argument: a task whose live in-degree has reached zero (in
an all-incomplete working set) has all of its in-set dependency ids among
the already emitted ids. -/
theorem deps_done_of_nonpos {tasks : List Task} {done : List Nat}
    (hincomp : ∀ u ∈ tasks, u.completed = false)
    (hdoneNodup : done.Nodup)
    (hdoneMem : ∀ i ∈ done, i ∈ IdsOf tasks)
    {m : Task}
    (hle : (blockCount tasks m : Int) -
      ((done.filter (fun i => m.dependencies.contains i)).length : Int) ≤ 0) :
    ∀ w ∈ tasks, w.task_id ∈ m.dependencies → w.task_id ∈ done := by
  have hAnodup : (done.filter (fun i => m.dependencies.contains i)).Nodup :=
    hdoneNodup.filter _
  have hBnodup : ((m.dependencies.dedup).filter
      (fun d => dep_counts tasks d)).Nodup :=
    (List.nodup_dedup _).filter _
  have hAB : done.filter (fun i => m.dependencies.contains i) ⊆
      (m.dependencies.dedup).filter (fun d => dep_counts tasks d) := by
    intro i hi
    have hi1 : i ∈ done := List.mem_of_mem_filter hi
    have hi2 : m.dependencies.contains i = true := List.of_mem_filter hi
    have hi3 : i ∈ m.dependencies := contains_iff_mem.mp hi2
    obtain ⟨u, hu, hui⟩ := List.mem_map.mp (hdoneMem i hi1)
    refine List.mem_filter.mpr ⟨List.mem_dedup.mpr hi3, ?_⟩
    exact dep_counts_true hincomp ⟨u, hu, hui⟩
  have hlenAB : (done.filter (fun i => m.dependencies.contains i)).length ≤
      ((m.dependencies.dedup).filter (fun d => dep_counts tasks d)).length :=
    (hAnodup.subperm hAB).length_le
  have hlenB : ((m.dependencies.dedup).filter
      (fun d => dep_counts tasks d)).length ≤ blockCount tasks m :=
    ((List.dedup_sublist m.dependencies).filter _).length_le
  have hlenA : blockCount tasks m ≤
      (done.filter (fun i => m.dependencies.contains i)).length := by
    omega
  have hperm : List.Perm (done.filter (fun i => m.dependencies.contains i))
      ((m.dependencies.dedup).filter (fun d => dep_counts tasks d)) :=
    (hAnodup.subperm hAB).perm_of_length_le (by omega)
  intro w hw hdep
  have hwB : w.task_id ∈ (m.dependencies.dedup).filter
      (fun d => dep_counts tasks d) := by
    refine List.mem_filter.mpr ⟨List.mem_dedup.mpr hdep, ?_⟩
    exact dep_counts_true hincomp ⟨w, hw, rfl⟩
  have hwA : w.task_id ∈ done.filter (fun i => m.dependencies.contains i) :=
    hperm.mem_iff.mpr hwB
  exact List.mem_of_mem_filter hwA

/-- Quantitative invariant: the live in-degree of every task equals its
initial blocking count minus the number of emitted ids appearing among its
dependencies. -/
def DegSpec (tasks : List Task) (done : List Nat) (deg : Nat → Int) : Prop :=
  ∀ u ∈ tasks, deg u.task_id =
    (blockCount tasks u : Int) -
      ((done.filter (fun i => u.dependencies.contains i)).length : Int)

theorem degSpec_init {tasks : List Task} (hids : (IdsOf tasks).Nodup) :
    DegSpec tasks [] (initDeg tasks) := by
  intro u hu
  rw [initDeg_spec hids hu]
  simp

theorem degSpec_step {tasks : List Task} {done : List Nat} {deg : Nat → Int}
    (rest : List Task) (t : Task)
    (hids : (IdsOf tasks).Nodup)
    (hincomp : ∀ u ∈ tasks, u.completed = false)
    (hspec : DegSpec tasks done deg) :
    DegSpec tasks (done ++ [t.task_id])
      (tasks.foldl (decStep t.task_id) (deg, rest)).1 := by
  intro u hu
  rw [decFold_deg]
  have hq : ((deg, rest) : (Nat → Int) × List Task).1 = deg := rfl
  rw [hq, hspec u hu]
  rw [filter_id_and hids hu
    (fun w => w.dependencies.contains t.task_id && !w.completed)]
  rw [List.filter_append]
  by_cases hc : u.dependencies.contains t.task_id = true
  · rw [if_pos (by rw [hc, hincomp u hu]; rfl)]
    have hsing : [t.task_id].filter (fun i => u.dependencies.contains i)
        = [t.task_id] := by
      rw [List.filter_cons, if_pos hc]
      rfl
    rw [hsing, List.length_append]
    simp only [List.length_singleton, List.length_cons, List.length_nil]
    push_cast
    ring
  · have hc' : u.dependencies.contains t.task_id = false := by
      cases hx : u.dependencies.contains t.task_id
      · rfl
      · exact absurd hx hc
    rw [if_neg (by rw [hc']; simp)]
    have hsing : [t.task_id].filter (fun i => u.dependencies.contains i)
        = [] := by
      rw [List.filter_cons, if_neg (by rw [hc']; simp)]
      rfl
    rw [hsing, List.append_nil]
    simp

/-- In an all-incomplete working set, every emitted task comes after each of
its in-set dependencies: either the dependency was emitted in an earlier
segment (its id is in `done`) or it occurs strictly earlier in the
output. -/
theorem topoLoop_deps {tasks : List Task} (hids : (IdsOf tasks).Nodup)
    (hincomp : ∀ u ∈ tasks, u.completed = false) :
    ∀ (fuel : Nat) (done : List Nat) (deg : Nat → Int) (avail : List Task),
      LoopInv tasks done deg avail →
      DegSpec tasks done deg →
      ∀ t ∈ topoLoop tasks fuel deg avail,
        ∀ w ∈ tasks, w.task_id ∈ t.dependencies →
          w.task_id ∈ done ∨
            List.Sublist [w, t] (topoLoop tasks fuel deg avail) := by
  intro fuel
  induction fuel with
  | zero =>
    intro done deg avail inv hspec t ht
    simp [topoLoop] at ht
  | succ fuel ih =>
    intro done deg avail inv hspec t ht w hw hdep
    cases hpop : popMin avail with
    | none =>
      rw [show topoLoop tasks (fuel + 1) deg avail = [] by
        simp [topoLoop, hpop]] at ht
      cases ht
    | some pr =>
      obtain ⟨m, rest⟩ := pr
      have hstep : topoLoop tasks (fuel + 1) deg avail
          = m :: topoLoop tasks fuel
              (tasks.foldl (decStep m.task_id) (deg, rest)).1
              (tasks.foldl (decStep m.task_id) (deg, rest)).2 := by
        simp [topoLoop, hpop]
      have hmm : m ∈ avail := popMin_mem hpop
      have hmt : m ∈ tasks := inv.availMem m hmm
      have hdoneNodup : done.Nodup := by
        have := inv.nod
        rw [List.nodup_append] at this
        exact this.1
      have hkey : ∀ v ∈ tasks, v.task_id ∈ m.dependencies →
          v.task_id ∈ done := by
        apply deps_done_of_nonpos hincomp hdoneNodup inv.doneMem
        have hle := inv.degLe m hmt
          (Or.inr (List.mem_map_of_mem Task.task_id hmm))
        rw [hspec m hmt] at hle
        exact hle
      have inv1 := loopInv_pop inv hpop
      have inv2 := loopInv_fold m.task_id tasks deg rest (fun u hu => hu) inv1
      have hspec2 := degSpec_step rest m hids hincomp hspec
      rw [hstep] at ht
      rcases List.mem_cons.mp ht with rfl | htTail
      · exact Or.inl (hkey w hw hdep)
      · have hrec := ih (done ++ [m.task_id]) _ _ inv2 hspec2 t htTail w hw hdep
        rcases hrec with hdone | hsub
        · rcases List.mem_append.mp hdone with hdone | hdone
          · exact Or.inl hdone
          · have he := List.mem_singleton.mp hdone
            have hwm : w = m := id_injective hids hw hmt he
            right
            rw [hstep, hwm]
            exact List.Sublist.cons₂ m (List.singleton_sublist.mpr htTail)
        · right
          rw [hstep]
          exact List.Sublist.cons m hsub

/-! ### Top-level glue -/

theorem score_preserves_task_id (now : Int) (t : Task) :
    (calculate_priority_score now t).task_id = t.task_id := rfl

theorem ids_map_score (now : Int) (l : List Task) :
    IdsOf (l.map (calculate_priority_score now)) = IdsOf l := by
  unfold IdsOf
  rw [List.map_map]
  rfl

theorem working_set_ids_nodup (mgr : TaskManager) (ic : Bool) (now : Int)
    (h : (IdsOf mgr.tasks).Nodup) :
    (IdsOf (working_set mgr ic now)).Nodup := by
  unfold working_set
  cases ic
  · rw [if_neg Bool.false_ne_true, ids_map_score]
    exact h.sublist ((List.filter_sublist mgr.tasks).map Task.task_id)
  · rw [if_pos rfl, ids_map_score]
    exact h

theorem working_set_incomplete (mgr : TaskManager) (now : Int) :
    ∀ u ∈ working_set mgr false now, u.completed = false := by
  intro u hu
  unfold working_set at hu
  rw [if_neg Bool.false_ne_true] at hu
  obtain ⟨v, hv, hvu⟩ := List.mem_map.mp hu
  have hvc := List.of_mem_filter hv
  have he : u.completed = v.completed := by
    rw [← hvu]
    rfl
  rw [he]
  simpa using hvc

theorem loopInv_init {tasks : List Task} (hids : (IdsOf tasks).Nodup) :
    LoopInv tasks [] (initDeg tasks) (initialReady tasks) := by
  refine ⟨?_, ?_, ?_, ?_⟩
  · rw [List.nil_append]
    unfold initialReady
    exact hids.sublist ((List.filter_sublist tasks).map Task.task_id)
  · intro u hu
    unfold initialReady at hu
    exact List.mem_of_mem_filter hu
  · intro i hi
    cases hi
  · intro u _ hmem
    rcases hmem with hmem | hmem
    · cases hmem
    · obtain ⟨v, hv, hvu⟩ := List.mem_map.mp hmem
      unfold initialReady at hv
      have hpred := List.of_mem_filter hv
      have h0 : initDeg tasks v.task_id = 0 := by simpa using hpred
      rw [← hvu]
      omega

theorem mainPhase_props {tasks : List Task} (hids : (IdsOf tasks).Nodup) :
    (∀ u ∈ mainPhase tasks, u ∈ tasks) ∧ (IdsOf (mainPhase tasks)).Nodup ∧
      (∀ u ∈ initialReady tasks, u ∈ mainPhase tasks) := by
  have h := topoLoop_props tasks.length [] (initDeg tasks)
    (initialReady tasks) (loopInv_init hids) (by omega)
  obtain ⟨h1, h2, h3⟩ := h
  rw [List.nil_append] at h2
  exact ⟨h1, h2, h3⟩

theorem insertDesc_perm (t : Task) (l : List Task) :
    List.Perm (insertDesc t l) (t :: l) := by
  induction l with
  | nil => exact List.Perm.refl _
  | cons u us ih =>
    rw [insertDesc]
    by_cases hc : u.priority_score ≤ t.priority_score
    · rw [if_pos hc]
    · rw [if_neg hc]
      exact (ih.cons u).trans (List.Perm.swap t u us)

theorem sortDesc_perm (l : List Task) : List.Perm (sortDesc l) l := by
  induction l with
  | nil => exact List.Perm.refl _
  | cons t ts ih =>
    rw [show sortDesc (t :: ts) = insertDesc t (sortDesc ts) from rfl]
    exact (insertDesc_perm t (sortDesc ts)).trans (ih.cons t)

theorem insertDesc_pairwise {t : Task} {l : List Task}
    (hl : List.Pairwise fallbackOrder l)
    (hid : ∀ u ∈ l, t.task_id < u.task_id) :
    List.Pairwise fallbackOrder (insertDesc t l) := by
  induction l with
  | nil => simp [insertDesc, fallbackOrder]
  | cons u us ih =>
    rw [insertDesc]
    obtain ⟨hu, hus⟩ := List.pairwise_cons.mp hl
    by_cases hc : u.priority_score ≤ t.priority_score
    · rw [if_pos hc]
      refine List.pairwise_cons.mpr ⟨?_, hl⟩
      intro v hv
      rcases List.mem_cons.mp hv with rfl | hv
      · have h2 := hid v (List.mem_cons_self v us)
        unfold fallbackOrder
        omega
      · have h1 := hu v hv
        have h2 := hid v (List.mem_cons_of_mem u hv)
        unfold fallbackOrder at h1 ⊢
        omega
    · rw [if_neg hc]
      refine List.pairwise_cons.mpr ⟨?_, ?_⟩
      · intro v hv
        rcases List.mem_cons.mp ((insertDesc_perm t us).subset hv)
          with rfl | hv
        · unfold fallbackOrder
          omega
        · exact hu v hv
      · exact ih hus (fun v hv => hid v (List.mem_cons_of_mem u hv))

theorem sortDesc_pairwise {l : List Task}
    (h : List.Pairwise (fun a b => a.task_id < b.task_id) l) :
    List.Pairwise fallbackOrder (sortDesc l) := by
  induction l with
  | nil => simp [sortDesc]
  | cons t ts ih =>
    obtain ⟨ht, hts⟩ := List.pairwise_cons.mp h
    rw [show sortDesc (t :: ts) = insertDesc t (sortDesc ts) from rfl]
    refine insertDesc_pairwise (ih hts) ?_
    intro u hu
    exact ht u ((sortDesc_perm ts).subset hu)

/-- The full output of `_topological_sort_with_priority` is a permutation
of its input working set. -/
theorem topo_sort_perm {tasks : List Task} (hids : (IdsOf tasks).Nodup) :
    List.Perm (topological_sort_with_priority tasks) tasks := by
  obtain ⟨m1, m2, _⟩ := mainPhase_props hids
  have tasksNodup : tasks.Nodup := List.Nodup.of_map _ hids
  have mainNodup : (mainPhase tasks).Nodup := List.Nodup.of_map _ m2
  have perm1 : List.Perm (mainPhase tasks)
      (tasks.filter (fun t => (mainPhase tasks).any
        (fun s => s.task_id == t.task_id))) := by
    apply List.Subperm.antisymm
    · apply mainNodup.subperm
      intro u hu
      refine List.mem_filter.mpr ⟨m1 u hu, ?_⟩
      exact List.any_eq_true.mpr ⟨u, hu, beq_iff_eq.mpr rfl⟩
    · apply (tasksNodup.filter _).subperm
      intro u hu
      have hu1 := List.mem_of_mem_filter hu
      have hu2 := List.of_mem_filter hu
      obtain ⟨s, hs, hsid⟩ := List.any_eq_true.mp hu2
      have : s = u := id_injective hids (m1 s hs) hu1 (beq_iff_eq.mp hsid)
      rw [← this]
      exact hs
  have perm2 : List.Perm (sortDesc (remainingTasks tasks))
      (remainingTasks tasks) := sortDesc_perm _
  have happ := List.filter_append_perm
    (fun t => (mainPhase tasks).any (fun s => s.task_id == t.task_id)) tasks
  exact (perm1.append perm2).trans happ

/-! ### Claim C2: permutation and totality -/

/-- C2: `ordered(include_completed)` is total by construction (the model is
a total function; `topoLoop_fuel_enough` shows the fuel bound never cuts
the loop short), and for every scheduler state with the id-uniqueness
invariant and every `include_completed` — including empty, all-completed
and fully cyclic collections — its output is a permutation of the (score-
refreshed) working set: every task appears exactly once. -/
theorem claim_C2_permutation_total (mgr : TaskManager) (ic : Bool) (now : Int)
    (h : (IdsOf mgr.tasks).Nodup) :
    List.Perm (get_sorted_tasks mgr ic now) (working_set mgr ic now) :=
  topo_sort_perm (working_set_ids_nodup mgr ic now h)

/-- Fully cyclic two-task state: 1 depends on 2, 2 depends on 1. -/
def cycA : Task := { baseTask with dependencies := [2] }

/-- Partner of `cycA`, urgency 9. -/
def cycB : Task :=
  { baseTask with
    task_id := 2, title := "B", urgency := 9, dependencies := [1] }

/-- Scheduler state holding the cycle `cycA`, `cycB`. -/
def cycMgr : TaskManager := { tasks := [cycA, cycB], next_id := 3 }

/-- Witness for C2 on a fully cyclic state. -/
theorem claim_C2_witness :
    List.Perm (get_sorted_tasks cycMgr false 0)
      (working_set cycMgr false 0) :=
  claim_C2_permutation_total cycMgr false 0 (by decide)

/-! ### Claim C1 (amended): dependency order -/

/-- C1 (amended): when the working set contains no completed task (as with
`include_completed = false`), a task `t` whose dependencies contain the id
of an in-set task `w` appears after `w` in `ordered()`'s output — except
possibly when both `t` and `w` are part of the cycle-fallback remainder
(the tasks left unemitted when the ready set empties), which is ordered by
priority alone. -/
theorem claim_C1_amended (mgr : TaskManager) (ic : Bool) (now : Int)
    (h : (IdsOf mgr.tasks).Nodup)
    (hinc : ∀ u ∈ working_set mgr ic now, u.completed = false)
    {t w : Task} (ht : t ∈ working_set mgr ic now)
    (hw : w ∈ working_set mgr ic now)
    (hdep : w.task_id ∈ t.dependencies) :
    List.Sublist [w, t] (get_sorted_tasks mgr ic now) ∨
      (t ∈ remainingTasks (working_set mgr ic now) ∧
        w ∈ remainingTasks (working_set mgr ic now)) := by
  have hids := working_set_ids_nodup mgr ic now h
  by_cases htm : t ∈ mainPhase (working_set mgr ic now)
  · left
    have hdeps := topoLoop_deps hids hinc (working_set mgr ic now).length []
      (initDeg (working_set mgr ic now))
      (initialReady (working_set mgr ic now))
      (loopInv_init hids) (degSpec_init hids) t htm w hw hdep
    rcases hdeps with hdone | hsub
    · cases hdone
    · exact hsub.trans
        (List.sublist_append_left (mainPhase (working_set mgr ic now))
          (sortDesc (remainingTasks (working_set mgr ic now))))
  · have hmem1 := mainPhase_props hids
    have htR : t ∈ remainingTasks (working_set mgr ic now) := by
      refine List.mem_filter.mpr ⟨ht, ?_⟩
      cases hx : (mainPhase (working_set mgr ic now)).any
          (fun s => s.task_id == t.task_id)
      · rfl
      · exfalso
        obtain ⟨s, hs, hsid⟩ := List.any_eq_true.mp hx
        have hst : s = t :=
          id_injective hids (hmem1.1 s hs) ht (beq_iff_eq.mp hsid)
        exact htm (hst ▸ hs)
    by_cases hwm : w ∈ mainPhase (working_set mgr ic now)
    · left
      have h1 : List.Sublist [w] (mainPhase (working_set mgr ic now)) :=
        List.singleton_sublist.mpr hwm
      have h2 : List.Sublist [t]
          (sortDesc (remainingTasks (working_set mgr ic now))) :=
        List.singleton_sublist.mpr ((sortDesc_perm _).mem_iff.mpr htR)
      exact h1.append h2
    · right
      have hwR : w ∈ remainingTasks (working_set mgr ic now) := by
        refine List.mem_filter.mpr ⟨hw, ?_⟩
        cases hx : (mainPhase (working_set mgr ic now)).any
            (fun s => s.task_id == w.task_id)
        · rfl
        · exfalso
          obtain ⟨s, hs, hsid⟩ := List.any_eq_true.mp hx
          have hst : s = w :=
            id_injective hids (hmem1.1 s hs) hw (beq_iff_eq.mp hsid)
          exact hwm (hst ▸ hs)
      exact ⟨htR, hwR⟩

/-- Chain fixture: task 2 depends on task 1. -/
def chainB : Task :=
  { baseTask with
    task_id := 2, title := "B", urgency := 9, dependencies := [1] }

/-- Scheduler state holding `baseTask` and `chainB`. -/
def chainMgr : TaskManager := { tasks := [baseTask, chainB], next_id := 3 }

/-- Witness for the amended C1: in `chainMgr`, task 2 depends on task 1 and
the output lists task 1 strictly before task 2 (or both fall to the cycle
fallback, which here they do not). -/
theorem claim_C1_amended_witness :
    List.Sublist
      [calculate_priority_score 0 baseTask, calculate_priority_score 0 chainB]
      (get_sorted_tasks chainMgr false 0) ∨
      (calculate_priority_score 0 chainB ∈
          remainingTasks (working_set chainMgr false 0) ∧
        calculate_priority_score 0 baseTask ∈
          remainingTasks (working_set chainMgr false 0)) :=
  claim_C1_amended chainMgr false 0 (by decide) (by decide)
    (by decide) (by decide) (by decide)

/-! ### Claim C3: ready-set priority order -/

/-- Task B of the two-task no-dependency scenario (urgency 9). -/
def c3B : Task := { baseTask with task_id := 2, title := "B", urgency := 9 }

/-- State with A (urgency 5) and B (urgency 9), no dependencies. -/
def c3mgr : TaskManager := { tasks := [baseTask, c3B], next_id := 3 }

/-- C3: whenever two tasks `x` and `y` are simultaneously in the ready set
(in any loop state satisfying the loop invariant, which covers every
reachable state), `x` is emitted strictly before `y` if `x` has the higher
`priority_score`, or an equal score and the lower id — making the output
deterministic on score ties; and in the concrete scenario A(urgency 5),
B(urgency 9) with no dependencies, `ordered()` returns `[B, A]`. -/
theorem claim_C3_ready_set_order :
    (∀ (tasks : List Task) (fuel : Nat) (done : List Nat) (deg : Nat → Int)
        (avail : List Task) (x y : Task),
      LoopInv tasks done deg avail →
      tasks.length - done.length ≤ fuel →
      x ∈ avail → y ∈ avail →
      (y.priority_score < x.priority_score ∨
        (x.priority_score = y.priority_score ∧ x.task_id < y.task_id)) →
      List.Sublist [x, y] (topoLoop tasks fuel deg avail)) ∧
    get_sorted_tasks c3mgr false 0 =
      [{ c3B with priority_score := 90 },
       { baseTask with priority_score := 50 }] := by
  constructor
  · intro tasks fuel done deg avail x y inv hb hx hy hcmp
    apply topoLoop_order fuel done deg avail x y inv hb hx hy
    unfold heapLt
    rcases hcmp with hlt | ⟨heq, hid⟩
    · simp [hlt]
    · simp [heq, hid]
  · decide

/-- Witness for C3's general conjunct: in the scored working set of
`c3mgr`, both tasks are in the initial ready set and B (score 90) precedes
A (score 50) in the loop output. -/
theorem claim_C3_witness :
    List.Sublist
      [{ c3B with priority_score := 90 }, { baseTask with priority_score := 50 }]
      (topoLoop (working_set c3mgr false 0) 2
        (initDeg (working_set c3mgr false 0))
        (initialReady (working_set c3mgr false 0))) :=
  claim_C3_ready_set_order.1 (working_set c3mgr false 0) 2 []
    (initDeg (working_set c3mgr false 0))
    (initialReady (working_set c3mgr false 0))
    { c3B with priority_score := 90 } { baseTask with priority_score := 50 }
    ⟨by decide, by decide, by decide, by decide⟩
    (by decide) (by decide) (by decide) (by decide)

/-! ### Claim C4 (amended): cycle fallback -/

/-- C4 (amended): when the ready set empties with tasks unemitted, the
remainder is appended in one batch (a permutation of the remaining tasks —
the operation does not fail), stable-sorted by `priority_score` descending;
the id-ascending tie-break holds whenever the working set is stored in
ascending id order (true for every state built through add/edit/delete/
complete, but not for a state loaded from a file listing tasks out of id
order); in the concrete mutual-cycle scenario with urgencies 5 and 9 the
output is `[B, A]`. -/
theorem claim_C4_cycle_fallback :
    (∀ tasks : List Task,
      List.Pairwise (fun a b => a.task_id < b.task_id) tasks →
      List.Pairwise fallbackOrder (sortDesc (remainingTasks tasks)) ∧
      List.Perm (sortDesc (remainingTasks tasks)) (remainingTasks tasks)) ∧
    get_sorted_tasks cycMgr false 0 =
      [{ cycB with priority_score := 90 },
       { cycA with priority_score := 50 }] := by
  constructor
  · intro tasks h
    constructor
    · refine sortDesc_pairwise ?_
      have hsub : List.Sublist (remainingTasks tasks) tasks :=
        List.filter_sublist tasks
      exact List.Pairwise.sublist hsub h
    · exact sortDesc_perm _
  · decide

/-- Witness for C4's general conjunct on the ascending-id cyclic state. -/
theorem claim_C4_witness :
    List.Pairwise fallbackOrder
      (sortDesc (remainingTasks (working_set cycMgr false 0))) ∧
    List.Perm (sortDesc (remainingTasks (working_set cycMgr false 0)))
      (remainingTasks (working_set cycMgr false 0)) :=
  claim_C4_cycle_fallback.1 (working_set cycMgr false 0) (by decide)

/-- Converse reading of the blocking test: when it passes, some stored
incomplete task carries the id. -/
theorem dep_counts_spec {tasks : List Task} {d : Nat}
    (h : dep_counts tasks d = true) :
    ∃ v ∈ tasks, v.task_id = d ∧ v.completed = false := by
  unfold dep_counts at h
  rw [Bool.and_eq_true] at h
  rcases task_dict_find_result d tasks none with hres | ⟨v, hv, hres, hvd⟩
  · exfalso
    have h2 := h.2
    unfold task_dict_find at h2
    rw [hres] at h2
    cases h2
  · have h2 := h.2
    unfold task_dict_find at h2
    rw [show tasks.foldl (fun acc u => if u.task_id == d then some u else acc)
        none = some v from hres] at h2
    refine ⟨v, hv, hvd, ?_⟩
    simpa using h2

/-! ### Claim C6: non-blocking dependency kinds -/

/-- C6: a dependency entry pointing outside the working set, to a completed
task, or to a nonexistent id never blocks: a task all of whose dependency
entries are of those kinds has blocking in-edge count zero and is in the
initial ready set. -/
theorem claim_C6_nonblocking_deps (mgr : TaskManager) (ic : Bool) (now : Int)
    (t : Task) (h : (IdsOf mgr.tasks).Nodup)
    (ht : t ∈ working_set mgr ic now)
    (hnb : ∀ d ∈ t.dependencies,
      ¬ ∃ u, u ∈ working_set mgr ic now ∧ u.task_id = d ∧
        u.completed = false) :
    initDeg (working_set mgr ic now) t.task_id = 0 ∧
      t ∈ initialReady (working_set mgr ic now) := by
  have hids := working_set_ids_nodup mgr ic now h
  have hzero : initDeg (working_set mgr ic now) t.task_id = 0 := by
    rw [initDeg_spec hids ht]
    unfold blockCount
    rw [List.filter_eq_nil_iff.mpr ?_]
    · rfl
    · intro d hd
      intro hdc
      obtain ⟨v, hv, hvd, hvc⟩ := dep_counts_spec hdc
      exact hnb d hd ⟨v, hv, hvd, hvc⟩
  refine ⟨hzero, ?_⟩
  unfold initialReady
  refine List.mem_filter.mpr ⟨ht, ?_⟩
  rw [hzero]
  rfl

/-- Dangling-dependency fixture: the only dependency is nonexistent id 999. -/
def c6task : Task := { baseTask with dependencies := [999] }

/-- State holding only `c6task`. -/
def c6mgr : TaskManager := { tasks := [c6task], next_id := 2 }

/-- Witness for C6: task C depending on the nonexistent id 999 has in-edge
count zero and is immediately ready. -/
theorem claim_C6_witness :
    initDeg (working_set c6mgr false 0)
        (calculate_priority_score 0 c6task).task_id = 0 ∧
      calculate_priority_score 0 c6task ∈
        initialReady (working_set c6mgr false 0) :=
  claim_C6_nonblocking_deps c6mgr false 0 (calculate_priority_score 0 c6task)
    (by decide) (by decide) (by decide)

/-! ### Claim C7 (amended): delete -/

theorem working_set_mem_ids {mgr : TaskManager} {ic : Bool} {now : Int}
    {u : Task} (hu : u ∈ working_set mgr ic now) :
    ∃ v ∈ mgr.tasks, u.task_id = v.task_id := by
  unfold working_set at hu
  obtain ⟨v, hv, hvu⟩ := List.mem_map.mp hu
  refine ⟨v, ?_, by rw [← hvu]; rfl⟩
  cases ic
  · rw [if_neg Bool.false_ne_true] at hv
    exact List.mem_of_mem_filter hv
  · rw [if_pos rfl] at hv
    exact hv

/-- C7 (amended): `delete(X)` returns false and leaves the state unchanged
when X is unknown; otherwise it returns true, removes task X, and strips
the FIRST occurrence of X from each remaining task's dependency list — so
no task's dependencies contain X afterwards whenever no dependency list
held X more than once (the intended set semantics). In every case no task
with id X remains, so any residual X reference is dangling and the blocking
test for X in a subsequent `ordered()` always fails: X never blocks. -/
theorem claim_C7_delete (mgr : TaskManager) (X : Nat) (now : Int) :
    ((mgr.tasks.any (fun t => t.task_id == X)) = false →
      delete_task mgr X now = (false, mgr)) ∧
    ((mgr.tasks.any (fun t => t.task_id == X)) = true →
      (delete_task mgr X now).1 = true) ∧
    (∀ t' ∈ (delete_task mgr X now).2.tasks, t'.task_id ≠ X) ∧
    ((mgr.tasks.any (fun t => t.task_id == X)) = true →
      (∀ t ∈ mgr.tasks, t.dependencies.count X ≤ 1) →
      ∀ t' ∈ (delete_task mgr X now).2.tasks, X ∉ t'.dependencies) ∧
    (∀ (ic : Bool) (now2 : Int),
      dep_counts (working_set (delete_task mgr X now).2 ic now2) X
        = false) := by
  have hnoid : ∀ t' ∈ (delete_task mgr X now).2.tasks, t'.task_id ≠ X := by
    intro t' ht'
    by_cases hany : (mgr.tasks.any (fun t => t.task_id == X)) = true
    · have hpost : (delete_task mgr X now).2.tasks
          = ((mgr.tasks.map (fun t =>
              { t with dependencies := t.dependencies.erase X })).filter
              (fun t => !(t.task_id == X))).map
            (calculate_priority_score now) := by
        unfold delete_task
        rw [if_pos hany]
        rfl
      rw [hpost] at ht'
      obtain ⟨v, hv, hvt⟩ := List.mem_map.mp ht'
      have hvne := List.of_mem_filter hv
      rw [← hvt]
      show (calculate_priority_score now v).task_id ≠ X
      intro he
      have : (v.task_id == X) = true := beq_iff_eq.mpr he
      rw [this] at hvne
      cases hvne
    · have hpost : delete_task mgr X now = (false, mgr) := by
        unfold delete_task
        rw [if_neg hany]
      rw [hpost] at ht'
      intro he
      exact hany (List.any_eq_true.mpr ⟨t', ht', beq_iff_eq.mpr he⟩)
  refine ⟨?_, ?_, hnoid, ?_, ?_⟩
  · intro h
    unfold delete_task
    rw [if_neg (by intro hx; rw [h] at hx; cases hx)]
  · intro h
    unfold delete_task
    rw [if_pos h]
  · intro hany hcount t' ht'
    have hpost : (delete_task mgr X now).2.tasks
        = ((mgr.tasks.map (fun t =>
            { t with dependencies := t.dependencies.erase X })).filter
            (fun t => !(t.task_id == X))).map
          (calculate_priority_score now) := by
      unfold delete_task
      rw [if_pos hany]
      rfl
    rw [hpost] at ht'
    obtain ⟨v, hv, hvt⟩ := List.mem_map.mp ht'
    obtain ⟨w, hw, hwv⟩ := List.mem_map.mp (List.mem_of_mem_filter hv)
    have hdeps : t'.dependencies = w.dependencies.erase X := by
      rw [← hvt, ← hwv]
      rfl
    rw [hdeps]
    have hcount2 := List.count_erase_self X w.dependencies
    have hle := hcount w hw
    refine List.count_eq_zero.mp ?_
    omega
  · intro ic now2
    have hany2 : ((working_set (delete_task mgr X now).2 ic now2).any
        (fun u => u.task_id == X)) = false := by
      cases hx : ((working_set (delete_task mgr X now).2 ic now2).any
          (fun u => u.task_id == X))
      · rfl
      · exfalso
        obtain ⟨u, hu, hid⟩ := List.any_eq_true.mp hx
        obtain ⟨v, hv, hvu⟩ := working_set_mem_ids hu
        have : v.task_id = X := by
          rw [← hvu]
          exact beq_iff_eq.mp hid
        exact hnoid v hv this
    unfold dep_counts
    rw [hany2, Bool.false_and]

/-- Delete fixture: task 2 depends once on task 1. -/
def c7wmgr : TaskManager :=
  { tasks := [baseTask,
      { baseTask with task_id := 2, title := "B", dependencies := [1] }],
    next_id := 3 }

/-- Witness for the amended C7 on `c7wmgr`: deleting task 1 succeeds, no
task with id 1 remains, no dependency list contains 1 (the lists held 1 at
most once), and the blocking test for 1 fails afterwards. -/
theorem claim_C7_witness :
    (delete_task c7wmgr 1 0).1 = true ∧
    (∀ t' ∈ (delete_task c7wmgr 1 0).2.tasks, t'.task_id ≠ 1) ∧
    (∀ t' ∈ (delete_task c7wmgr 1 0).2.tasks, 1 ∉ t'.dependencies) ∧
    dep_counts (working_set (delete_task c7wmgr 1 0).2 false 0) 1 = false :=
  ⟨(claim_C7_delete c7wmgr 1 0).2.1 (by decide),
   (claim_C7_delete c7wmgr 1 0).2.2.1,
   (claim_C7_delete c7wmgr 1 0).2.2.2.1 (by decide) (by decide),
   (claim_C7_delete c7wmgr 1 0).2.2.2.2 false 0⟩

/-! ### Claim C8 (amended): persistence round trip -/

theorem from_dict_to_dict (now : Int) (t : Task) :
    from_dict now (to_dict t) = some t := rfl

theorem dictInsert_fresh {tasks : List Task} {t : Task}
    (h : (tasks.any (fun u => u.task_id == t.task_id)) = false) :
    dictInsert tasks t = tasks ++ [t] := by
  unfold dictInsert
  rw [if_neg (by intro hx; rw [h] at hx; cases hx)]

theorem loadLoop_roundtrip (now : Int) :
    ∀ (l : List Task) (acc : List Task),
      (IdsOf l).Nodup →
      (∀ u ∈ l, (acc.any (fun w => w.task_id == u.task_id)) = false) →
      loadLoop now (l.map to_dict) acc = (true, acc ++ l) := by
  intro l
  induction l with
  | nil =>
    intro acc _ _
    simp [loadLoop]
  | cons t ts ih =>
    intro acc hids hfresh
    obtain ⟨hnotin, hnod⟩ := nodup_ids_cons hids
    rw [List.map_cons]
    rw [show loadLoop now (to_dict t :: ts.map to_dict) acc
        = loadLoop now (ts.map to_dict) (dictInsert acc t) from by
      rw [loadLoop, from_dict_to_dict]]
    rw [dictInsert_fresh (hfresh t (List.mem_cons_self t ts))]
    rw [ih (acc ++ [t]) hnod ?_]
    · rw [List.append_assoc]
      rfl
    · intro u hu
      rw [List.any_append]
      have h1 := hfresh u (List.mem_cons_of_mem t hu)
      have h2 : ([t].any (fun w => w.task_id == u.task_id)) = false := by
        have hne : t.task_id ≠ u.task_id := by
          intro he
          exact hnotin (he ▸ List.mem_map_of_mem Task.task_id hu)
        simp [hne]
      rw [h1, h2]
      rfl

/-- C8 (amended): loading the serialization of a state `S` (regardless of
the prior in-memory state) reports success and reproduces every persisted
field and `next_id` verbatim — `priority_score` excepted, which
`load_from_json` recomputes at load time: the result equals `S` with all
scores refreshed, and equals `S` exactly whenever `S`'s scores are current
for the load instant. -/
theorem claim_C8_roundtrip (prior mgr : TaskManager) (now : Int)
    (h : (IdsOf mgr.tasks).Nodup) :
    load_from_json prior (some (save_to_json mgr)) now
      = (true, update_priorities now mgr) ∧
    (load_from_json prior (some (save_to_json mgr)) now).2.next_id
      = mgr.next_id ∧
    (update_priorities now mgr = mgr →
      load_from_json prior (some (save_to_json mgr)) now = (true, mgr)) := by
  have hload : loadLoop now (mgr.tasks.map to_dict) [] = (true, mgr.tasks) := by
    have := loadLoop_roundtrip now mgr.tasks [] h (fun u _ => rfl)
    simpa using this
  have hmain : load_from_json prior (some (save_to_json mgr)) now
      = (true, update_priorities now mgr) := by
    simp only [load_from_json, save_to_json, Option.getD_some]
    rw [hload]
  refine ⟨hmain, ?_, ?_⟩
  · rw [hmain]
    rfl
  · intro hfresh
    rw [hmain, hfresh]

/-- Round-trip witness state: one task whose stored score is current for
time 0. -/
def c8wmgr : TaskManager :=
  { tasks := [{ baseTask with priority_score := 50 }], next_id := 7 }

/-- Witness for the amended C8: the round trip at time 0 succeeds,
reproduces `c8wmgr` up to score refresh — here exactly, the stored score
being current — and honors the persisted `next_id` 7 verbatim. -/
theorem claim_C8_witness :
    load_from_json { tasks := [], next_id := 1 } (some (save_to_json c8wmgr)) 0
      = (true, update_priorities 0 c8wmgr) ∧
    (load_from_json { tasks := [], next_id := 1 }
      (some (save_to_json c8wmgr)) 0).2.next_id = c8wmgr.next_id ∧
    load_from_json { tasks := [], next_id := 1 } (some (save_to_json c8wmgr)) 0
      = (true, c8wmgr) :=
  ⟨(claim_C8_roundtrip { tasks := [], next_id := 1 } c8wmgr 0 (by decide)).1,
   (claim_C8_roundtrip { tasks := [], next_id := 1 } c8wmgr 0 (by decide)).2.1,
   (claim_C8_roundtrip { tasks := [], next_id := 1 } c8wmgr 0 (by decide)).2.2
     (by decide)⟩

/-! ### Claim C10: edit's None markers -/

/-- C10: `edit` uses `None` as the "field omitted" marker for every
optional parameter, so a set optional field can never be cleared: every
stored task keeps a task with its id whose deadline stays non-absent if it
was non-absent, and a field is changed only when its argument is not
`None`. -/
theorem claim_C10_edit_none_markers (mgr : TaskManager) (tid : Nat)
    (a b : Option String) (dl : Option Int) (urg : Option Int)
    (deps : Option (List Nat)) (now : Int) (t : Task) (ht : t ∈ mgr.tasks) :
    ∃ t' ∈ (edit_task mgr tid a b dl urg deps now).2.tasks,
      t'.task_id = t.task_id ∧
      (t.deadline.isSome = true → t'.deadline.isSome = true) ∧
      (a = none → t'.title = t.title) ∧
      (b = none → t'.description = t.description) ∧
      (dl = none → t'.deadline = t.deadline) ∧
      (urg = none → t'.urgency = t.urgency) ∧
      (deps = none → t'.dependencies = t.dependencies) := by
  unfold edit_task
  by_cases hany : (mgr.tasks.any (fun u => u.task_id == tid)) = true
  · rw [if_pos hany]
    refine ⟨_, List.mem_map_of_mem (calculate_priority_score now)
      (List.mem_map_of_mem _ ht), ?_⟩
    by_cases hid : (t.task_id == tid) = true
    · refine ⟨?_, ?_, ?_, ?_, ?_, ?_, ?_⟩
      · show ((if (t.task_id == tid) = true then _ else t) : Task).task_id
          = t.task_id
        rw [if_pos hid]
      · intro hds
        show (Option.isSome
          ((if (t.task_id == tid) = true then _ else t) : Task).deadline)
          = true
        rw [if_pos hid]
        cases dl
        · simpa using hds
        · rfl
      · intro ha
        subst ha
        show ((if (t.task_id == tid) = true then _ else t) : Task).title
          = t.title
        rw [if_pos hid]
      · intro hb
        subst hb
        show ((if (t.task_id == tid) = true then _ else t) : Task).description
          = t.description
        rw [if_pos hid]
      · intro hdl
        subst hdl
        show ((if (t.task_id == tid) = true then _ else t) : Task).deadline
          = t.deadline
        rw [if_pos hid]
      · intro hurg
        subst hurg
        show ((if (t.task_id == tid) = true then _ else t) : Task).urgency
          = t.urgency
        rw [if_pos hid]
      · intro hdeps
        subst hdeps
        show ((if (t.task_id == tid) = true then _ else t) : Task).dependencies
          = t.dependencies
        rw [if_pos hid]
    · refine ⟨?_, ?_, ?_, ?_, ?_, ?_, ?_⟩
      · show ((if (t.task_id == tid) = true then _ else t) : Task).task_id
          = t.task_id
        rw [if_neg hid]
      · intro hds
        show (Option.isSome
          ((if (t.task_id == tid) = true then _ else t) : Task).deadline)
          = true
        rw [if_neg hid]
        exact hds
      · intro _
        show ((if (t.task_id == tid) = true then _ else t) : Task).title
          = t.title
        rw [if_neg hid]
      · intro _
        show ((if (t.task_id == tid) = true then _ else t) : Task).description
          = t.description
        rw [if_neg hid]
      · intro _
        show ((if (t.task_id == tid) = true then _ else t) : Task).deadline
          = t.deadline
        rw [if_neg hid]
      · intro _
        show ((if (t.task_id == tid) = true then _ else t) : Task).urgency
          = t.urgency
        rw [if_neg hid]
      · intro _
        show ((if (t.task_id == tid) = true then _ else t) : Task).dependencies
          = t.dependencies
        rw [if_neg hid]
  · rw [if_neg hany]
    exact ⟨t, ht, rfl, fun h => h, fun _ => rfl, fun _ => rfl, fun _ => rfl,
      fun _ => rfl, fun _ => rfl⟩

/-- Witness state for C10: task 1 has a deadline set. -/
def c10mgr : TaskManager :=
  { tasks := [{ baseTask with deadline := some 86400 }], next_id := 2 }

/-- Witness for C10: editing task 1 with every optional argument omitted
except urgency leaves the deadline set and the other fields unchanged. -/
theorem claim_C10_witness :
    ∃ t' ∈ (edit_task c10mgr 1 none none none (some 9) none 0).2.tasks,
      t'.task_id = 1 ∧
      (((({ baseTask with deadline := some 86400 } : Task)).deadline.isSome
          = true) → t'.deadline.isSome = true) ∧
      (t'.title = baseTask.title) ∧ (t'.description = baseTask.description) ∧
      (t'.deadline = some 86400) ∧ (t'.dependencies = baseTask.dependencies) := by
  obtain ⟨t', ht', h1, h2, h3, h4, h5, _h6, h7⟩ :=
    claim_C10_edit_none_markers c10mgr 1 none none none (some 9) none 0
      { baseTask with deadline := some 86400 } (by decide)
  exact ⟨t', ht', h1, h2, h3 rfl, h4 rfl, h5 rfl, h7 rfl⟩

end STM
